import Mathlib

/-!
# imagelocalizer

A shallow embedding of `imagelocalizer.go` (package `main`): the two regular
expressions, `downloadFile`, and `process`, followed by theorems about them.

Modelling conventions.

* A Go string is modelled by the list of its runes (`List Char`): the `regexp`
  package decodes the UTF-8 text into runes before matching. `strings.Replacer`
  compares bytes, which on UTF-8 text and for keys that begin with an ASCII
  letter finds the same occurrences.
* The operating system and the network are inputs. `CallEnv` says how they
  answer during one call of `downloadFile`, `Net` chooses that answer from the
  calls made so far and the URL, `FileEnv` says how the document itself
  answers `os.Open`, `Stat`, `ReadAll` and `WriteFile`.
* A Go `map[string]string` is an association list in insertion order; the
  order in which `range` visits it is an input too (`MapOrder`).
* `crypto/sha256` is a parameter `sha : List Nat → List Nat` (bytes to bytes).
-/

namespace ImageLocalizer

/-! ## Case-insensitive literals -/

/-- The runes that a letter of a pattern matches under the flag `(?i)`: Go's
`regexp` compares up to Unicode simple case folding, so `s` also matches the
long s (U+017F). Only the letters that occur in the two patterns of the
program are listed; every other pattern character matches itself only. -/
def foldOrbit (p : Char) : List Char :=
  if p = 'h' then ['h', 'H']
  else if p = 't' then ['t', 'T']
  else if p = 'p' then ['p', 'P']
  else if p = 'j' then ['j', 'J']
  else if p = 'g' then ['g', 'G']
  else if p = 's' then ['s', 'S', Char.ofNat 0x17f]
  else [p]

/-- Matches the literal `lit` case-insensitively at the start of `s` and
returns what follows it. -/
def matchFold : List Char → List Char → Option (List Char)
  | [], s => some s
  | _ :: _, [] => none
  | p :: ps, c :: cs => if c ∈ foldOrbit p then matchFold ps cs else none

/-- Whether `s` ends with the literal `lit`, compared case-insensitively. -/
def endsWithFold (lit s : List Char) : Bool :=
  decide (lit.length ≤ s.length) && (matchFold lit (s.drop (s.length - lit.length)) == some [])

/-- The double quote. -/
def quote : Char := Char.ofNat 34

/-! ## `imageURLPattern` -/

/-- The literal `http` of `imageURLPattern`. -/
def httpLit : List Char := ['h', 't', 't', 'p']

/-- The literal `\.jpg` of `imageURLPattern`. -/
def jpgLit : List Char := ['.', 'j', 'p', 'g']

/-- The match of `(?i)"(http[^"]*\.jpg)"` anchored at the start of `s`, given by
its capture group (the text between the two quotes). No part of the pattern
between the quotes can match a quote, so the closing quote is the first quote
after the opening one, and the text between them has to be `http`, anything,
`.jpg`. -/
def imageMatchAt (s : List Char) : Option (List Char) :=
  match s with
  | [] => none
  | c :: rest =>
    if c = quote then
      match rest.dropWhile (fun x => x != quote) with
      | [] => none
      | _ :: _ =>
        let body := rest.takeWhile (fun x => x != quote)
        match matchFold httpLit body with
        | none => none
        | some tail => if endsWithFold jpgLit tail then some body else none
    else none

/-- The scan of `FindAllString`: `skip` characters still belong to the last
match; otherwise a match is looked for at the current position, and the search
goes on right after it. -/
def findAllFrom : Nat → List Char → List (List Char)
  | _, [] => []
  | skip + 1, _ :: cs => findAllFrom skip cs
  | 0, c :: cs =>
    match imageMatchAt (c :: cs) with
    | some u => (quote :: u ++ [quote]) :: findAllFrom (u.length + 1) cs
    | none => findAllFrom 0 cs

/-- Models `imageURLPattern.FindAllString(s, -1)`: the successive leftmost
non-overlapping matches, quotes included. -/
def findAllString (s : List Char) : List (List Char) := findAllFrom 0 s

/-- Models `u[1 : len(u)-1]`. -/
def stripQuotes (m : List Char) : List Char := (m.drop 1).dropLast

/-- The URLs the loop of `process` sees, in order, duplicates included. -/
def extractURLs (s : List Char) : List (List Char) := (findAllString s).map stripQuotes

/-! ## `scalePattern` -/

/-- The length of the match of `(?i)/s[0-9]+(-h)?` anchored at the start of
`s`: a slash, an `s`, the longest run of digits (at least one), and `-h` when
it follows. -/
def scaleMatchAt (s : List Char) : Option Nat :=
  match s with
  | c₀ :: c₁ :: rest =>
    if c₀ = '/' ∧ c₁ ∈ foldOrbit 's' then
      let digits := rest.takeWhile Char.isDigit
      if digits = [] then none
      else
        match matchFold ['-', 'h'] (rest.dropWhile Char.isDigit) with
        | some _ => some (2 + digits.length + 2)
        | none => some (2 + digits.length)
    else none
  | _ => none

/-- The replacement template of line 60. -/
def s3200 : List Char := ['/', 's', '3', '2', '0', '0']

/-- The scan of `ReplaceAllString`, with the same `skip` counter as
`findAllFrom`. -/
def scaleFrom : Nat → List Char → List Char
  | _, [] => []
  | skip + 1, _ :: cs => scaleFrom skip cs
  | 0, c :: cs =>
    match scaleMatchAt (c :: cs) with
    | some n => s3200 ++ scaleFrom (n - 1) cs
    | none => c :: scaleFrom 0 cs

/-- Models `scalePattern.ReplaceAllString(u, "/s3200")`. -/
def resolvedSizeURL (u : List Char) : List Char := scaleFrom 0 u

/-! ## `strings.NewReplacer(...).Replace` -/

/-- The pair a replacer applies at the start of `s`: of the pairs whose `old`
is a prefix of `s`, the one that comes first in argument order. -/
def lookup (oldnew : List (List Char × List Char)) (s : List Char) :
    Option (List Char × List Char) :=
  oldnew.find? (fun kv => kv.1.isPrefixOf s)

/-- The scan of `Replacer.Replace`. After an empty `old` has matched, the same
position is looked up once more among the non-empty ones. -/
def replaceFrom (oldnew : List (List Char × List Char)) : Nat → List Char → List Char
  | _, [] =>
    match lookup oldnew [] with
    | some kv => kv.2
    | none => []
  | skip + 1, _ :: cs => replaceFrom oldnew skip cs
  | 0, c :: cs =>
    match lookup oldnew (c :: cs) with
    | none => c :: replaceFrom oldnew 0 cs
    | some kv =>
      if kv.1 = [] then
        match lookup (oldnew.filter (fun p => p.1 != [])) (c :: cs) with
        | none => kv.2 ++ c :: replaceFrom oldnew 0 cs
        | some kv₁ => kv.2 ++ kv₁.2 ++ replaceFrom oldnew (kv₁.1.length - 1) cs
      else kv.2 ++ replaceFrom oldnew (kv.1.length - 1) cs

/-- Models `strings.NewReplacer(r...).Replace(s)`, the arguments given as
pairs. -/
def replace (oldnew : List (List Char × List Char)) (s : List Char) : List Char :=
  replaceFrom oldnew 0 s

/-! ## `downloadFile` -/

/-- The errors of the program, by the place that raises them. -/
inductive Err where
  | openFile
  | statFile
  | readFile
  | writeFile
  | tempFile
  | httpGet
  | badStatus (code : Nat)
  | copyBody
  | mkdirAll
  | rename
  deriving DecidableEq, Repr

/-- An HTTP response as `downloadFile` uses it. -/
structure Response where
  statusCode : Nat
  body : List Nat
  copyOk : Bool
  deriving DecidableEq, Repr

/-- How the system answers during one call of `downloadFile`. -/
structure CallEnv where
  tempFileOk : Bool
  get : Option Response
  mkdirOk : Bool
  renameOk : Bool
  deriving DecidableEq, Repr

/-- One lowercase hexadecimal digit. -/
def hexDigit (n : Nat) : Char :=
  ['0', '1', '2', '3', '4', '5', '6', '7', '8', '9', 'a', 'b', 'c', 'd', 'e', 'f'].getD n '0'

/-- Models `fmt.Sprintf("%x", bs)` for a byte slice. -/
def hexString (bs : List Nat) : List Char :=
  bs.flatMap (fun b => [hexDigit (b / 16 % 16), hexDigit (b % 16)])

/-- The relative path `filepath.Join("img", destFile)` with
`destFile = fmt.Sprintf("%x.jpg", h.Sum(nil))`. -/
def imgPath (sha : List Nat → List Nat) (body : List Nat) : List Char :=
  ['i', 'm', 'g', '/'] ++ (hexString (sha body) ++ jpgLit)

/-- Models `downloadFile(destinationDir, url)`: the returned path and error.
The arguments only select where the system calls act; their outcome is `e`. -/
def downloadFile (sha : List Nat → List Nat) (e : CallEnv) : List Char × Option Err :=
  if !e.tempFileOk then ([], some Err.tempFile)
  else
    match e.get with
    | none => ([], some Err.httpGet)
    | some r =>
      if r.statusCode ≠ 200 then ([], some (Err.badStatus r.statusCode))
      else if !r.copyOk then ([], some Err.copyBody)
      else if !e.mkdirOk then ([], some Err.mkdirAll)
      else (imgPath sha r.body, if e.renameOk then none else some Err.rename)

/-! ## `process` -/

/-- The answers of the system to the calls of `downloadFile`: the fetch
targets requested so far, then the target requested now. -/
abbrev Net := List (List Char) → List Char → CallEnv

/-- One call of `downloadFile` made by `process`. -/
structure Call where
  original : List Char
  target : List Char
  path : List Char
  err : Option Err
  deriving DecidableEq, Repr

/-- The state of the loop of lines 54 to 67. -/
structure LoopState where
  replacements : List (List Char × List Char)
  calls : List Call
  deriving DecidableEq, Repr

/-- One iteration of the loop, for the stripped URL `u`. -/
def loopStep (sha : List Nat → List Nat) (net : Net) (st : LoopState) (u : List Char) :
    LoopState :=
  if u ∈ st.replacements.map Prod.fst then st
  else
    let originalSizeURL := resolvedSizeURL u
    let r := downloadFile sha (net (st.calls.map Call.target) originalSizeURL)
    { replacements := st.replacements ++ [(u, r.1)]
      calls := st.calls ++ [{ original := u, target := originalSizeURL, path := r.1, err := r.2 }] }

/-- The loop of lines 54 to 67. -/
def runLoop (sha : List Nat → List Nat) (net : Net) (urls : List (List Char)) : LoopState :=
  urls.foldl (loopStep sha net) { replacements := [], calls := [] }

/-- An order in which `range` may visit the entries of a map. -/
structure MapOrder where
  visit : List (List Char × List Char) → List (List Char × List Char)
  perm : ∀ l, (visit l).Perm l

/-- How the document answers the calls of `process`. -/
structure FileEnv where
  openOk : Bool
  stat : Option Nat
  read : Option (List Char)
  writeOk : Bool
  deriving DecidableEq, Repr

/-- What `process` did: the calls of `downloadFile`, the arguments of
`ioutil.WriteFile` when it was called, and the returned error. -/
structure Outcome where
  calls : List Call
  written : Option (List Char × Nat)
  result : Option Err
  deriving DecidableEq, Repr

/-- The arguments `process` hands to `strings.NewReplacer` for the text `b`. -/
def replacerArgs (sha : List Nat → List Nat) (net : Net) (order : MapOrder) (b : List Char) :
    List (List Char × List Char) :=
  order.visit (runLoop sha net (extractURLs b)).replacements

/-- Models `process(filename)`. -/
def process (sha : List Nat → List Nat) (net : Net) (order : MapOrder) (file : FileEnv) :
    Outcome :=
  if !file.openOk then { calls := [], written := none, result := some Err.openFile }
  else
    match file.stat with
    | none => { calls := [], written := none, result := some Err.statFile }
    | some mode =>
      match file.read with
      | none => { calls := [], written := none, result := some Err.readFile }
      | some b =>
        -- line 44: `err` is nil from here on; the `err` of line 62 is a new
        -- variable of the loop body
        let err : Option Err := none
        let st := runLoop sha net (extractURLs b)
        let out := replace (order.visit st.replacements) b
        -- line 75: `ioutil.WriteFile(filename, []byte(out), mode)`; the error it
        -- returns is assigned to nothing
        let _writeErr : Option Err := if file.writeOk then none else some Err.writeFile
        -- line 76: `return err`
        { calls := st.calls, written := some (out, mode), result := err }

/-- A document that can be opened, stat'ed and read: its mode, its content,
and whether the final `ioutil.WriteFile` succeeds. -/
def readable (mode : Nat) (b : List Char) (writeOk : Bool) : FileEnv :=
  { openOk := true, stat := some mode, read := some b, writeOk := writeOk }

/-- What holds of every state the loop reaches: the map holds one entry per
call, and every call fetched the resolved-size URL of its original URL and
recorded what `downloadFile` returned. -/
def LoopInv (sha : List Nat → List Nat) (st : LoopState) : Prop :=
  st.replacements = st.calls.map (fun c => (c.original, c.path)) ∧
  ∀ c ∈ st.calls, c.target = resolvedSizeURL c.original ∧
    ∃ e : CallEnv, (c.path, c.err) = downloadFile sha e

/-! ## Notions of the specification -/

/-- The distinct elements of a list in the order of their first occurrence. -/
def firstOccurrences : List (List Char) → List (List Char)
  | [] => []
  | u :: us => u :: (firstOccurrences us).filter (fun v => v != u)

/-- The text `s` is the literal `lit` up to the case folding of `(?i)`. -/
def FoldEq (lit s : List Char) : Prop :=
  List.Forall₂ (fun p c => c ∈ foldOrbit p) lit s

/-- A URL as the extractor returns it: it begins with `http` and ends with
`.jpg`, both compared case-insensitively, and holds no double quote. -/
def IsImageURL (u : List Char) : Prop :=
  (∃ h t, u = h ++ t ∧ FoldEq httpLit h) ∧ (∃ t j, u = t ++ j ∧ FoldEq jpgLit j) ∧ quote ∉ u

/-- A match of the image URL pattern in the words of the specification: a
double quote, `http`, any characters that are not a double quote, `.jpg`, a
closing double quote. -/
def IsImageMatch (m : List Char) : Prop :=
  ∃ h mid j, m = quote :: (h ++ mid ++ j) ++ [quote] ∧
    FoldEq httpLit h ∧ quote ∉ mid ∧ FoldEq jpgLit j

/-- The successive leftmost non-overlapping matches of the image URL pattern
in a text: either the text holds no match, or a match `m` starts where no
match starts further left and the list goes on with the matches of the text
behind `m`. -/
inductive LeftmostMatches : List Char → List (List Char) → Prop
  | done {s : List Char} :
      (∀ a m b, s = a ++ m ++ b → ¬ IsImageMatch m) → LeftmostMatches s []
  | step {a m b : List Char} {ms : List (List Char)} :
      IsImageMatch m →
      (∀ a₁ m₁ b₁, a ++ m ++ b = a₁ ++ m₁ ++ b₁ → IsImageMatch m₁ → a.length ≤ a₁.length) →
      LeftmostMatches b ms → LeftmostMatches (a ++ m ++ b) (m :: ms)

/-- The text starts with a slash, an `s` (up to case) and a digit: a match
of the size pattern starts here. -/
def sizeStart : List Char → Bool
  | c₀ :: c₁ :: c₂ :: _ => c₀ == '/' && decide (c₁ ∈ foldOrbit 's') && c₂.isDigit
  | _ => false

/-- Nowhere in the text does a match of the size pattern start. -/
def NoSizeStart (u : List Char) : Prop :=
  ∀ t ∈ u.tails, sizeStart t = false

/-- The text `m`, followed by `b`, is what the size pattern matches at the
start of `m ++ b`: a slash, an `s`, one or more digits and an optional `-h`,
with all the digits that are there and with the `-h` whenever it is there. -/
def IsSizeMatch (m b : List Char) : Prop :=
  ∃ c ds h, m = '/' :: c :: ds ++ h ∧ c ∈ foldOrbit 's' ∧ ds ≠ [] ∧
    (∀ d ∈ ds, d.isDigit = true) ∧
    (FoldEq ['-', 'h'] h ∨
      (h = [] ∧ (∀ d ∈ b.head?, d.isDigit = false) ∧ matchFold ['-', 'h'] b = none))

/-- The second text is the first one with every match of the size pattern,
taken from left to right without overlap, replaced by `/s3200`, and nothing
else changed. -/
inductive AllReplaced : List Char → List Char → Prop
  | done {s : List Char} : NoSizeStart s → AllReplaced s s
  | step {a m b out : List Char} :
      (∀ t ∈ a.tails, t ≠ [] → sizeStart (t ++ m ++ b) = false) →
      IsSizeMatch m b → AllReplaced b out →
      AllReplaced (a ++ m ++ b) (a ++ s3200 ++ out)

/-- The pieces of a text between its slashes. -/
def splitSlash : List Char → List (List Char)
  | [] => [[]]
  | c :: cs =>
    if c = '/' then [] :: splitSlash cs
    else
      match splitSlash cs with
      | [] => [[c]]
      | p :: ps => (c :: p) :: ps

/-- The path segments of a URL: the text between two consecutive slashes, or
between the last slash and the end. -/
def pathSegments (u : List Char) : List (List Char) := (splitSlash u).tail

/-- A path segment of the form `s<digits>` or `s<digits>-h`, compared
case-insensitively. -/
def isSizeSegment : List Char → Bool
  | [] => false
  | c :: rest =>
    decide (c ∈ foldOrbit 's') && !(rest.takeWhile Char.isDigit).isEmpty &&
      ((rest.dropWhile Char.isDigit).isEmpty ||
        matchFold ['-', 'h'] (rest.dropWhile Char.isDigit) == some [])

/-- The value of a lowercase hexadecimal digit, by its code point: `0` to `9`
are 48 to 57 and `a` to `f` are 97 to 102. No other character has a value. -/
def hexValue (c : Char) : Option Nat :=
  if 48 ≤ c.toNat ∧ c.toNat ≤ 57 then some (c.toNat - 48)
  else if 97 ≤ c.toNat ∧ c.toNat ≤ 102 then some (c.toNat - 87)
  else none

/-- The bytes that a text of lowercase hexadecimal digits encodes, two digits
per byte, the high digit first. -/
def decodeHex : List Char → Option (List Nat)
  | [] => some []
  | [_] => none
  | hi :: lo :: rest =>
    match hexValue hi, hexValue lo, decodeHex rest with
    | some h, some l, some bs => some ((16 * h + l) :: bs)
    | _, _, _ => none

/-- No element of the list is a proper prefix of another one. -/
def PrefixFree (l : List (List Char)) : Prop :=
  ∀ u ∈ l, ∀ v ∈ l, u <+: v → u = v

/-- The number of positions of `s` at which `u` occurs. -/
def occurrences (u : List Char) : List Char → Nat
  | [] => 0
  | c :: cs => (if u.isPrefixOf (c :: cs) then 1 else 0) + occurrences u cs

/-! ## Sample inputs -/

/-- The text of a string literal. -/
def txt (s : String) : List Char := s.toList

/-- The order of insertion. -/
def insertionOrder : MapOrder := ⟨id, fun l => List.Perm.refl l⟩

/-- The reverse of the order of insertion. -/
def reverseOrder : MapOrder := ⟨List.reverse, fun l => List.reverse_perm l⟩

/-- A stand-in for SHA-256 in sample runs, one byte long: the first byte of
the body, or 0. With it the body `[171]` is stored as `img/ab.jpg`. -/
def sampleSha (body : List Nat) : List Nat := [body.headD 0]

/-- A stand-in for SHA-256 with a digest of four bytes: 0, 255, 10 and the
first byte of the body. -/
def sampleSha4 (body : List Nat) : List Nat := [0, 255, 10, body.headD 0]

/-- A system on which every call of `downloadFile` succeeds with `body`. -/
def okEnv (body : List Nat) : CallEnv :=
  { tempFileOk := true, get := some { statusCode := 200, body := body, copyOk := true },
    mkdirOk := true, renameOk := true }

/-- A server that answers every request with status 404. -/
def notFoundEnv : CallEnv :=
  { tempFileOk := true, get := some { statusCode := 404, body := [], copyOk := true },
    mkdirOk := true, renameOk := true }

/-! ## The loop of `process` -/

theorem mem_firstOccurrences (l : List (List Char)) (v : List Char) :
    v ∈ firstOccurrences l ↔ v ∈ l := by
  induction l with
  | nil => simp [firstOccurrences]
  | cons u us ih =>
    simp only [firstOccurrences, List.mem_cons, List.mem_filter, ih, bne_iff_ne, ne_eq]
    by_cases h : v = u
    · simp [h]
    · simp [h]

theorem nodup_firstOccurrences (l : List (List Char)) : (firstOccurrences l).Nodup := by
  induction l with
  | nil => simp [firstOccurrences]
  | cons u us ih =>
    simp only [firstOccurrences, List.nodup_cons, List.mem_filter, bne_self_eq_false,
      Bool.false_eq_true, and_false, not_false_eq_true, true_and]
    exact ih.filter _

theorem length_filter_eq_one {α β : Type} [DecidableEq β] (f : α → β) (b : β) :
    ∀ l : List α, (l.map f).Nodup → b ∈ l.map f →
      (l.filter (fun x => decide (f x = b))).length = 1 := by
  intro l
  induction l with
  | nil => intro _ h; simp at h
  | cons x xs ih =>
    intro hnd hb
    rw [List.map_cons, List.nodup_cons] at hnd
    by_cases hx : f x = b
    · have hnone : xs.filter (fun y => decide (f y = b)) = [] := by
        rw [List.filter_eq_nil_iff]
        intro y hy
        have : f y ≠ b := by
          intro hyb
          apply hnd.1
          rw [hx, ← hyb]
          exact List.mem_map_of_mem f hy
        simpa using this
      simp [List.filter_cons, hx, hnone]
    · have hb' : b ∈ xs.map f := by
        rw [List.map_cons, List.mem_cons] at hb
        rcases hb with hb | hb
        · exact absurd hb.symm hx
        · exact hb
      simp [List.filter_cons, hx, ih hnd.2 hb']

theorem loopInv_step (sha : List Nat → List Nat) (net : Net) (st : LoopState) (u : List Char)
    (h : LoopInv sha st) : LoopInv sha (loopStep sha net st u) := by
  unfold loopStep
  split
  · exact h
  · refine ⟨?_, ?_⟩
    · simp [h.1]
    · intro c hc
      simp only [List.mem_append, List.mem_singleton] at hc
      rcases hc with hc | hc
      · exact h.2 c hc
      · subst hc
        exact ⟨rfl, _, rfl⟩

theorem loopInv_foldl (sha : List Nat → List Nat) (net : Net) (urls : List (List Char)) :
    ∀ st : LoopState, LoopInv sha st → LoopInv sha (urls.foldl (loopStep sha net) st) := by
  induction urls with
  | nil => intro st h; exact h
  | cons u us ih => intro st h; exact ih _ (loopInv_step sha net st u h)

theorem loopInv_runLoop (sha : List Nat → List Nat) (net : Net) (urls : List (List Char)) :
    LoopInv sha (runLoop sha net urls) :=
  loopInv_foldl sha net urls _ ⟨rfl, by simp⟩

theorem foldl_loopStep_keys (sha : List Nat → List Nat) (net : Net) (urls : List (List Char)) :
    ∀ st : LoopState,
      ((urls.foldl (loopStep sha net) st).replacements.map Prod.fst
        = st.replacements.map Prod.fst
          ++ (firstOccurrences urls).filter (fun v => decide (v ∉ st.replacements.map Prod.fst))) := by
  induction urls with
  | nil => intro st; simp [firstOccurrences]
  | cons u us ih =>
    intro st
    rw [List.foldl_cons, ih]
    by_cases hu : u ∈ st.replacements.map Prod.fst
    · have hstep : loopStep sha net st u = st := by simp only [loopStep, if_pos hu]
      rw [hstep]
      congr 1
      simp only [firstOccurrences, List.filter_cons, hu, not_true_eq_false, decide_False]
      simp only [Bool.false_eq_true, ↓reduceIte, List.filter_filter]
      apply List.filter_congr
      intro v _
      by_cases hv : v = u
      · subst hv; simp [hu]
      · simp [hv]
    · have hstep : (loopStep sha net st u).replacements.map Prod.fst
          = st.replacements.map Prod.fst ++ [u] := by
        simp only [loopStep, if_neg hu, List.map_append, List.map_cons, List.map_nil]
      rw [hstep, List.append_assoc]
      congr 1
      simp only [firstOccurrences, List.filter_cons, hu, not_false_eq_true, decide_True,
        ↓reduceIte, List.singleton_append, List.filter_filter]
      congr 1
      apply List.filter_congr
      intro v _
      by_cases hv : v = u
      · subst hv; simp
      · have hne : (v != u) = true := by simpa using hv
        by_cases hk : v ∈ st.replacements.map Prod.fst
        · simp [hk, List.mem_append]
        · have : v ∉ st.replacements.map Prod.fst ++ [u] := by
            simp only [List.mem_append, List.mem_singleton, not_or]; exact ⟨hk, hv⟩
          simp [hne, this, hk]

/-! ## What `process` fetches and returns -/

theorem runLoop_keys (sha : List Nat → List Nat) (net : Net) (urls : List (List Char)) :
    (runLoop sha net urls).replacements.map Prod.fst = firstOccurrences urls := by
  have h := foldl_loopStep_keys sha net urls { replacements := [], calls := [] }
  simpa [runLoop] using h

theorem runLoop_originals (sha : List Nat → List Nat) (net : Net) (urls : List (List Char)) :
    (runLoop sha net urls).calls.map Call.original = firstOccurrences urls := by
  rw [← runLoop_keys sha net urls, (loopInv_runLoop sha net urls).1]
  simp [List.map_map, Function.comp_def]

theorem runLoop_targets (sha : List Nat → List Nat) (net : Net) (urls : List (List Char)) :
    (runLoop sha net urls).calls.map Call.target
      = (firstOccurrences urls).map resolvedSizeURL := by
  rw [← runLoop_originals sha net urls, List.map_map]
  apply List.map_congr_left
  intro c hc
  exact ((loopInv_runLoop sha net urls).2 c hc).1

theorem process_readable (sha : List Nat → List Nat) (net : Net) (order : MapOrder)
    (mode : Nat) (b : List Char) (w : Bool) :
    process sha net order (readable mode b w)
      = { calls := (runLoop sha net (extractURLs b)).calls,
          written := some (replace (replacerArgs sha net order b) b, mode),
          result := none } := by
  simp [process, readable, replacerArgs]

theorem replaceFrom_nil_args (s : List Char) : ∀ n, replaceFrom [] n s = s.drop n := by
  induction s with
  | nil => intro n; simp [replaceFrom, lookup]
  | cons c cs ih =>
    intro n
    cases n with
    | zero => simp [replaceFrom, lookup, ih 0]
    | succ n => simp [replaceFrom, ih n]

/-- C1. The calls of `downloadFile` made by `process` are, in order, one per
distinct extracted URL in the order of first occurrence, each for the
resolved-size URL of its original URL; so an original URL that is extracted at
least once is fetched exactly once, whatever the calls return. -/
theorem process_fetches_first_occurrences (sha : List Nat → List Nat) (net : Net)
    (order : MapOrder) (mode : Nat) (b : List Char) (w : Bool) :
    (process sha net order (readable mode b w)).calls.map Call.target
        = (firstOccurrences (extractURLs b)).map resolvedSizeURL ∧
    (process sha net order (readable mode b w)).calls.map Call.original
        = firstOccurrences (extractURLs b) ∧
    ∀ u ∈ extractURLs b,
      ((process sha net order (readable mode b w)).calls.filter
        (fun c => decide (c.original = u))).length = 1 := by
  rw [process_readable]
  refine ⟨runLoop_targets sha net _, runLoop_originals sha net _, ?_⟩
  intro u hu
  apply length_filter_eq_one Call.original u
  · rw [runLoop_originals]; exact nodup_firstOccurrences _
  · rw [runLoop_originals]; exact (mem_firstOccurrences _ u).mpr hu

/-- C5. Whatever the calls of `downloadFile` return, `process` fetches every
extracted URL, the sequence of fetch targets is the same as under any other
behaviour of the network, and with a successful final write the returned error
is nil. -/
theorem process_survives_fetch_failures (sha : List Nat → List Nat) (net net₁ : Net)
    (order : MapOrder) (mode : Nat) (b : List Char) :
    (process sha net order (readable mode b true)).result = none ∧
    (∀ u ∈ extractURLs b, ∃ c ∈ (process sha net order (readable mode b true)).calls,
      c.original = u ∧ c.target = resolvedSizeURL u) ∧
    (process sha net order (readable mode b true)).calls.map Call.target
      = (process sha net₁ order (readable mode b true)).calls.map Call.target := by
  rw [process_readable, process_readable]
  refine ⟨rfl, ?_, ?_⟩
  · intro u hu
    have hmem : u ∈ (runLoop sha net (extractURLs b)).calls.map Call.original := by
      rw [runLoop_originals]; exact (mem_firstOccurrences _ u).mpr hu
    obtain ⟨c, hc, hcu⟩ := List.mem_map.mp hmem
    refine ⟨c, hc, hcu, ?_⟩
    rw [← hcu]
    exact ((loopInv_runLoop sha net _).2 c hc).1
  · simp only [runLoop_targets]

/-- C9. With no match of the image URL pattern in the text, `process` makes no
call of `downloadFile` and hands `ioutil.WriteFile` the content it read and the
mode it captured. -/
theorem process_without_urls (sha : List Nat → List Nat) (net : Net) (order : MapOrder)
    (mode : Nat) (b : List Char) (w : Bool) (h : extractURLs b = []) :
    (process sha net order (readable mode b w)).calls = [] ∧
    (process sha net order (readable mode b w)).written = some (b, mode) := by
  rw [process_readable]
  have hargs : replacerArgs sha net order b = [] := by
    have hp := order.perm (runLoop sha net (extractURLs b)).replacements
    rw [h] at hp
    simp only [replacerArgs, h]
    exact List.Perm.eq_nil (by simpa [runLoop] using hp)
  simp [h, runLoop, hargs, replace, replaceFrom_nil_args]

/-- C9 at a document whose only quoted URL does not begin with `http`. -/
theorem process_without_urls_witness :
    extractURLs (txt "see \"ftp://example.com/photo.jpg\"") = [] ∧
    (process sampleSha (fun _ _ => notFoundEnv) reverseOrder
        (readable 384 (txt "see \"ftp://example.com/photo.jpg\"") true)).calls = [] ∧
    (process sampleSha (fun _ _ => notFoundEnv) reverseOrder
        (readable 384 (txt "see \"ftp://example.com/photo.jpg\"") true)).written
      = some (txt "see \"ftp://example.com/photo.jpg\"", 384) :=
  ⟨by decide,
   process_without_urls sampleSha (fun _ _ => notFoundEnv) reverseOrder 384
    (txt "see \"ftp://example.com/photo.jpg\"") true (by decide)⟩

/-- C3. A document with mode 0444 whose final write fails; the one fetch
succeeds. `process` still returns nil. -/
theorem process_write_failure_returns_nil :
    (process sampleSha (fun _ _ => okEnv [171]) insertionOrder
      (readable 292 (txt "\"http://example.com/photo.jpg\"") false)).result = none := by
  decide

/-! ## The replacer -/

theorem replaceFrom_drop (l : List (List Char × List Char)) (s : List Char) :
    ∀ n, replaceFrom l n s = replaceFrom l 0 (s.drop n) := by
  induction s with
  | nil => intro n; simp [replaceFrom]
  | cons c cs ih =>
    intro n
    cases n with
    | zero => rfl
    | succ n => rw [List.drop_succ_cons, ← ih n, replaceFrom]

theorem lookup_mem {l : List (List Char × List Char)} {s : List Char}
    {kv : List Char × List Char} (h : lookup l s = some kv) : kv ∈ l ∧ kv.1 <+: s := by
  unfold lookup at h
  exact ⟨List.mem_of_find?_eq_some h, by simpa using List.find?_some h⟩

theorem lookup_eq_none {l : List (List Char × List Char)} {s : List Char} :
    lookup l s = none ↔ ∀ kv ∈ l, ¬ kv.1 <+: s := by
  simp [lookup]

theorem replace_nil {l : List (List Char × List Char)} (hne : ∀ kv ∈ l, kv.1 ≠ []) :
    replace l [] = [] := by
  have : lookup l [] = none := by
    rw [lookup_eq_none]
    intro kv hkv hp
    exact hne kv hkv (List.prefix_nil.mp hp)
  simp [replace, replaceFrom, this]

theorem replace_cons_of_none {l : List (List Char × List Char)} {c : Char} {cs : List Char}
    (h : lookup l (c :: cs) = none) : replace l (c :: cs) = c :: replace l cs := by
  simp [replace, replaceFrom, h]

theorem replace_of_lookup {l : List (List Char × List Char)} {s : List Char}
    {kv : List Char × List Char} (h : lookup l s = some kv) (hne : kv.1 ≠ []) :
    replace l s = kv.2 ++ replace l (s.drop kv.1.length) := by
  have hp := (lookup_mem h).2
  cases s with
  | nil => exact absurd (List.prefix_nil.mp hp) hne
  | cons c cs =>
    have hlen : kv.1.length = (kv.1.length - 1) + 1 := by
      have : 0 < kv.1.length := List.length_pos.mpr hne
      omega
    simp only [replace, replaceFrom, h, if_neg hne]
    rw [replaceFrom_drop l cs (kv.1.length - 1)]
    conv_rhs => rw [hlen, List.drop_succ_cons]

theorem find?_congr_mem {α : Type} {p q : α → Bool} :
    ∀ {l : List α}, (∀ x ∈ l, p x = q x) → l.find? p = l.find? q := by
  intro l
  induction l with
  | nil => intro _; rfl
  | cons x xs ih =>
    intro h
    have hx := h x (List.mem_cons_self _ _)
    have hxs := ih (fun y hy => h y (List.mem_cons_of_mem _ hy))
    simp only [List.find?_cons, hx, hxs]

/-- Looking up a text that goes on behind a character no key contains. -/
theorem lookup_append_of_not_mem {l : List (List Char × List Char)} {q : Char}
    (hq : ∀ kv ∈ l, q ∉ kv.1) (a b : List Char) :
    lookup l (a ++ q :: b) = lookup l a := by
  unfold lookup
  apply find?_congr_mem
  intro kv hkv
  have hiff : kv.1 <+: a ++ q :: b ↔ kv.1 <+: a := by
    constructor
    · intro hp
      rcases Nat.lt_or_ge a.length kv.1.length with hlt | hge
      · exfalso
        obtain ⟨t, ht⟩ := hp
        have hget : kv.1[a.length]? = some q := by
          have h1 : (kv.1 ++ t)[a.length]? = (a ++ q :: b)[a.length]? := by rw [ht]
          rw [List.getElem?_append_left hlt] at h1
          rw [h1, List.getElem?_append_right (Nat.le_refl _)]
          simp
        exact hq kv hkv (List.mem_iff_getElem?.mpr ⟨_, hget⟩)
      · exact List.prefix_of_prefix_length_le hp (List.prefix_append a _) hge
    · intro hp
      exact hp.trans (List.prefix_append a _)
  show kv.1.isPrefixOf (a ++ q :: b) = kv.1.isPrefixOf a
  rw [Bool.eq_iff_iff]
  simp only [List.isPrefixOf_iff_prefix]
  exact hiff

/-- A replacer none of whose keys is empty or contains `q` works on the parts
before and after a `q` separately. -/
theorem replace_append_of_not_mem {l : List (List Char × List Char)} {q : Char}
    (hne : ∀ kv ∈ l, kv.1 ≠ []) (hq : ∀ kv ∈ l, q ∉ kv.1) (b : List Char) :
    ∀ (n : Nat) (a : List Char), a.length ≤ n →
      replace l (a ++ q :: b) = replace l a ++ q :: replace l b := by
  intro n
  induction n with
  | zero =>
    intro a ha
    have : a = [] := List.length_eq_zero.mp (Nat.le_zero.mp ha)
    subst this
    have hnone : lookup l (q :: b) = none := by
      rw [lookup_eq_none]
      intro kv hkv hp
      obtain ⟨t, ht⟩ := hp
      cases hk : kv.1 with
      | nil => exact hne kv hkv hk
      | cons x xs =>
        rw [hk] at ht
        have hx : x = q := by simpa using (List.cons.inj ht).1
        apply hq kv hkv
        rw [hk, hx]
        exact List.mem_cons_self _ _
    rw [List.nil_append, replace_cons_of_none hnone, replace_nil hne, List.nil_append]
  | succ n ih =>
    intro a ha
    cases a with
    | nil => exact ih [] (Nat.zero_le _)
    | cons c cs =>
      have hl := lookup_append_of_not_mem hq (c :: cs) b
      cases hlk : lookup l (c :: cs) with
      | none =>
        rw [hlk, List.cons_append] at hl
        rw [List.cons_append, replace_cons_of_none hl, replace_cons_of_none hlk,
          ih cs (by simpa using ha), List.cons_append]
      | some kv =>
        rw [hlk] at hl
        have hkv := lookup_mem hlk
        have hkne := hne kv hkv.1
        rw [replace_of_lookup hl hkne, replace_of_lookup hlk hkne,
          List.drop_append_of_le_length hkv.2.length_le, List.append_assoc]
        congr 1
        apply ih
        have hpos : 0 < kv.1.length := List.length_pos.mpr hkne
        simp only [List.length_drop, List.length_cons] at ha ⊢
        omega

/-! ## The order of the replacer's arguments -/

theorem find?_perm_of_unique {α : Type} {p : α → Bool} {l l' : List α} (hp : l.Perm l')
    (hu : ∀ a ∈ l, ∀ b ∈ l, p a = true → p b = true → a = b) : l.find? p = l'.find? p := by
  cases h : l.find? p with
  | none =>
    symm
    rw [List.find?_eq_none] at h ⊢
    intro x hx
    exact h x (hp.mem_iff.mpr hx)
  | some a =>
    have ha := List.mem_of_find?_eq_some h
    have hpa := List.find?_some h
    cases h' : l'.find? p with
    | none =>
      rw [List.find?_eq_none] at h'
      exact absurd hpa (h' a (hp.mem_iff.mp ha))
    | some b =>
      have hb := hp.mem_iff.mpr (List.mem_of_find?_eq_some h')
      rw [hu a ha b hb hpa (List.find?_some h')]

theorem lookup_perm {l l' : List (List Char × List Char)} (hp : l.Perm l')
    (hpf : ∀ a ∈ l, ∀ b ∈ l, a.1 <+: b.1 → a = b) (s : List Char) :
    lookup l s = lookup l' s := by
  unfold lookup
  apply find?_perm_of_unique hp
  intro a ha b hb hpa hpb
  simp only [List.isPrefixOf_iff_prefix] at hpa hpb
  rcases List.prefix_or_prefix_of_prefix hpa hpb with h | h
  · exact hpf a ha b hb h
  · exact (hpf b hb a ha h).symm

theorem replaceFrom_perm {l l' : List (List Char × List Char)} (hp : l.Perm l')
    (hpf : ∀ a ∈ l, ∀ b ∈ l, a.1 <+: b.1 → a = b) (s : List Char) :
    ∀ n, replaceFrom l n s = replaceFrom l' n s := by
  have hfilter : ∀ t, lookup (l.filter (fun p => p.1 != [])) t
      = lookup (l'.filter (fun p => p.1 != [])) t := by
    intro t
    apply lookup_perm (hp.filter _)
    intro a ha b hb hab
    exact hpf a (List.mem_of_mem_filter ha) b (List.mem_of_mem_filter hb) hab
  induction s with
  | nil => intro n; simp only [replaceFrom, lookup_perm hp hpf]
  | cons c cs ih =>
    intro n
    cases n with
    | zero => simp only [replaceFrom, lookup_perm hp hpf, hfilter, ih]
    | succ n => simp only [replaceFrom, ih]

theorem replacements_unique (sha : List Nat → List Nat) (net : Net) (urls : List (List Char))
    (h : PrefixFree urls) :
    ∀ a ∈ (runLoop sha net urls).replacements, ∀ b ∈ (runLoop sha net urls).replacements,
      a.1 <+: b.1 → a = b := by
  intro a ha b hb hab
  have hkeys := runLoop_keys sha net urls
  have hmem : ∀ x ∈ (runLoop sha net urls).replacements, x.1 ∈ urls := by
    intro x hx
    rw [← mem_firstOccurrences, ← hkeys]
    exact List.mem_map_of_mem Prod.fst hx
  have hnd : ((runLoop sha net urls).replacements.map Prod.fst).Nodup := by
    rw [hkeys]; exact nodup_firstOccurrences urls
  exact List.inj_on_of_nodup_map hnd ha hb (h a.1 (hmem a ha) b.1 (hmem b hb) hab)

/-- C10, as amended. When no extracted URL is a proper prefix of another one,
the text `process` writes is the same for every order in which the entries of
the map are handed to the replacer. -/
theorem process_written_order_irrelevant (sha : List Nat → List Nat) (net : Net)
    (order₁ order₂ : MapOrder) (mode : Nat) (b : List Char) (w : Bool)
    (h : PrefixFree (extractURLs b)) :
    (process sha net order₁ (readable mode b w)).written
      = (process sha net order₂ (readable mode b w)).written := by
  rw [process_readable, process_readable]
  have hp : (replacerArgs sha net order₁ b).Perm (replacerArgs sha net order₂ b) :=
    (order₁.perm _).trans (order₂.perm _).symm
  have hpf : ∀ x ∈ replacerArgs sha net order₁ b, ∀ y ∈ replacerArgs sha net order₁ b,
      x.1 <+: y.1 → x = y := by
    intro x hx y hy hxy
    exact replacements_unique sha net _ h x ((order₁.perm _).mem_iff.mp hx) y
      ((order₁.perm _).mem_iff.mp hy) hxy
  simp only [replace, replaceFrom_perm hp hpf]

/-- C10, as amended, at a document with two URLs of which none is a prefix of
the other, for the insertion order and its reverse. -/
theorem process_written_order_irrelevant_witness :
    PrefixFree (extractURLs (txt "\"http://a.jpg\" \"http://b.jpg\"")) ∧
    (process sampleSha (fun _ _ => notFoundEnv) insertionOrder
        (readable 420 (txt "\"http://a.jpg\" \"http://b.jpg\"") true)).written
      = (process sampleSha (fun _ _ => notFoundEnv) reverseOrder
        (readable 420 (txt "\"http://a.jpg\" \"http://b.jpg\"") true)).written :=
  ⟨by unfold PrefixFree; decide,
   process_written_order_irrelevant sampleSha (fun _ _ => notFoundEnv) insertionOrder
    reverseOrder 420 (txt "\"http://a.jpg\" \"http://b.jpg\"") true
    (by unfold PrefixFree; decide)⟩

/-- C10, as stated, fails. The text holds the URLs `http://a.jpg` and
`http://a.jpg.jpg` and both fetches fail: visiting the map in insertion order
leaves `.jpg` behind, visiting it in reverse order does not. -/
theorem process_written_depends_on_order :
    (process sampleSha (fun _ _ => notFoundEnv) insertionOrder
        (readable 420 (txt "\"http://a.jpg\" \"http://a.jpg.jpg\"") true)).written
      = some (txt "\"\" \".jpg\"", 420) ∧
    (process sampleSha (fun _ _ => notFoundEnv) reverseOrder
        (readable 420 (txt "\"http://a.jpg\" \"http://a.jpg.jpg\"") true)).written
      = some (txt "\"\" \"\"", 420) ∧
    (process sampleSha (fun _ _ => notFoundEnv) insertionOrder
        (readable 420 (txt "\"http://a.jpg\" \"http://a.jpg.jpg\"") true)).written
      ≠ (process sampleSha (fun _ _ => notFoundEnv) reverseOrder
        (readable 420 (txt "\"http://a.jpg\" \"http://a.jpg.jpg\"") true)).written := by
  decide

/-! ## The image URL pattern -/

theorem matchFold_eq_some {lit : List Char} :
    ∀ {s r : List Char}, matchFold lit s = some r ↔ ∃ h, s = h ++ r ∧ FoldEq lit h := by
  induction lit with
  | nil =>
    intro s r
    constructor
    · intro h
      simp only [matchFold, Option.some.injEq] at h
      exact ⟨[], by simp [h], List.Forall₂.nil⟩
    · rintro ⟨h, hs, hf⟩
      cases hf
      simp [matchFold, hs]
  | cons p ps ih =>
    intro s r
    constructor
    · intro h
      cases s with
      | nil => simp [matchFold] at h
      | cons c cs =>
        simp only [matchFold] at h
        split at h
        · rename_i hc
          obtain ⟨h', hs, hf⟩ := ih.mp h
          exact ⟨c :: h', by simp [hs], List.Forall₂.cons hc hf⟩
        · exact absurd h (by simp)
    · rintro ⟨h, hs, hf⟩
      cases hf with
      | cons hc hf' =>
        rename_i c h'
        subst hs
        simp only [List.cons_append, matchFold, if_pos hc]
        exact ih.mpr ⟨h', rfl, hf'⟩

theorem foldEq_length {lit s : List Char} (h : FoldEq lit s) : s.length = lit.length :=
  (List.Forall₂.length_eq h).symm

theorem endsWithFold_iff {lit s : List Char} :
    endsWithFold lit s = true ↔ ∃ t j, s = t ++ j ∧ FoldEq lit j := by
  unfold endsWithFold
  simp only [Bool.and_eq_true, decide_eq_true_eq, beq_iff_eq]
  constructor
  · rintro ⟨_, hm⟩
    obtain ⟨h, hs, hf⟩ := matchFold_eq_some.mp hm
    refine ⟨s.take (s.length - lit.length), h, ?_, hf⟩
    rw [List.append_nil] at hs
    rw [← hs, List.take_append_drop]
  · rintro ⟨t, j, hs, hf⟩
    have hlen := (foldEq_length hf)
    subst hs
    refine ⟨by simp [hlen], ?_⟩
    have : (t ++ j).length - lit.length = t.length := by simp [hlen]
    rw [this, List.drop_left]
    exact matchFold_eq_some.mpr ⟨j, by simp, hf⟩

theorem findAllFrom_drop (s : List Char) :
    ∀ n, findAllFrom n s = findAllFrom 0 (s.drop n) := by
  induction s with
  | nil => intro n; simp [findAllFrom]
  | cons c cs ih =>
    intro n
    cases n with
    | zero => rfl
    | succ n => rw [List.drop_succ_cons, ← ih n, findAllFrom]

theorem findAllString_cons_of_none {c : Char} {cs : List Char}
    (h : imageMatchAt (c :: cs) = none) : findAllString (c :: cs) = findAllString cs := by
  simp [findAllString, findAllFrom, h]

theorem stripQuotes_quoted (u : List Char) : stripQuotes (quote :: u ++ [quote]) = u := by
  simp [stripQuotes]

/-- What a match at the start of a text looks like. -/
theorem imageMatchAt_eq_some {s u : List Char} (h : imageMatchAt s = some u) :
    ∃ rest, s = (quote :: u ++ [quote]) ++ rest ∧ quote ∉ u ∧
      ∃ tail, matchFold httpLit u = some tail ∧ endsWithFold jpgLit tail = true := by
  unfold imageMatchAt at h
  split at h
  · exact absurd h (by simp)
  · rename_i c rest
    split at h
    · rename_i hc
      split at h
      · exact absurd h (by simp)
      · rename_i d ds hdrop
        simp only at h
        split at h
        · exact absurd h (by simp)
        · rename_i tail hm
          split at h
          · rename_i he
            simp only [Option.some.injEq] at h
            have hd : d = quote := by
              have hh := List.head_dropWhile_not (fun x => x != quote) rest
                (by rw [hdrop]; simp)
              simp only [hdrop, List.head_cons] at hh
              simpa using hh
            have hsplit := List.takeWhile_append_dropWhile (fun x => x != quote) rest
            rw [hdrop, h, hd] at hsplit
            refine ⟨ds, ?_, ?_, tail, ?_, he⟩
            · rw [hc, ← hsplit]; simp
            · intro hq
              rw [← h] at hq
              have := List.mem_takeWhile_imp hq
              simp at this
            · rw [← h]; exact hm
          · exact absurd h (by simp)
    · exact absurd h (by simp)

theorem findAllString_cons_of_some {c : Char} {cs u : List Char}
    (h : imageMatchAt (c :: cs) = some u) :
    ∃ rest, c :: cs = (quote :: u ++ [quote]) ++ rest ∧
      findAllString (c :: cs) = (quote :: u ++ [quote]) :: findAllString rest := by
  obtain ⟨rest, hs, _⟩ := imageMatchAt_eq_some h
  refine ⟨rest, hs, ?_⟩
  have hcs : cs = u ++ quote :: rest := by
    simp only [List.cons_append, List.append_assoc, List.singleton_append] at hs
    exact (List.cons.inj hs).2
  simp only [findAllString, findAllFrom, h]
  rw [findAllFrom_drop cs (u.length + 1), hcs]
  congr 2
  rw [List.drop_append_eq_append_drop]
  simp

theorem foldEq_not_mem {lit s : List Char} {q : Char} (h : FoldEq lit s)
    (hq : ∀ p ∈ lit, q ∉ foldOrbit p) : q ∉ s := by
  induction h with
  | nil => simp
  | @cons p c ps cs hc _ ih =>
    intro hmem
    rcases List.mem_cons.mp hmem with hqc | hqc
    · exact hq p (List.mem_cons_self _ _) (hqc ▸ hc)
    · exact ih (fun p' hp' => hq p' (List.mem_cons_of_mem _ hp')) hqc

theorem quote_not_in_http : ∀ p ∈ httpLit, quote ∉ foldOrbit p := by decide

theorem quote_not_in_jpg : ∀ p ∈ jpgLit, quote ∉ foldOrbit p := by decide

/-- A match in the words of the specification is what `imageMatchAt` finds. -/
theorem imageMatchAt_of_isImageMatch {h mid j : List Char} (rest : List Char)
    (hh : FoldEq httpLit h) (hmid : quote ∉ mid) (hj : FoldEq jpgLit j) :
    imageMatchAt ((quote :: (h ++ mid ++ j) ++ [quote]) ++ rest) = some (h ++ mid ++ j) := by
  have hbody : ∀ x ∈ h ++ mid ++ j, (x != quote) = true := by
    intro x hx
    have hne : x ≠ quote := by
      rintro rfl
      simp only [List.mem_append] at hx
      rcases hx with (hx | hx) | hx
      · exact foldEq_not_mem hh quote_not_in_http hx
      · exact hmid hx
      · exact foldEq_not_mem hj quote_not_in_jpg hx
    simpa using hne
  have hq : ¬ ((quote != quote) = true) := by simp
  have htake : List.takeWhile (fun x => x != quote) ((h ++ mid ++ j) ++ quote :: rest)
      = h ++ mid ++ j := by
    rw [List.takeWhile_append_of_pos hbody, List.takeWhile_cons_of_neg (p := fun x => x != quote) hq, List.append_nil]
  have hdrop : List.dropWhile (fun x => x != quote) ((h ++ mid ++ j) ++ quote :: rest)
      = quote :: rest := by
    rw [List.dropWhile_append_of_pos hbody, List.dropWhile_cons_of_neg (p := fun x => x != quote) hq]
  have hm : matchFold httpLit (h ++ mid ++ j) = some (mid ++ j) :=
    matchFold_eq_some.mpr ⟨h, by simp, hh⟩
  have he : endsWithFold jpgLit (mid ++ j) = true := endsWithFold_iff.mpr ⟨mid, j, rfl, hj⟩
  have hs : (quote :: (h ++ mid ++ j) ++ [quote]) ++ rest
      = quote :: ((h ++ mid ++ j) ++ quote :: rest) := by simp
  rw [hs]
  simp only [imageMatchAt, if_true, hdrop, htake, hm, he]

theorem isImageMatch_of_imageMatchAt {s u : List Char} (h : imageMatchAt s = some u) :
    IsImageMatch (quote :: u ++ [quote]) := by
  obtain ⟨_, _, hq, tail, hm, he⟩ := imageMatchAt_eq_some h
  obtain ⟨hd, hu, hf⟩ := matchFold_eq_some.mp hm
  obtain ⟨mid, j, ht, hj⟩ := endsWithFold_iff.mp he
  refine ⟨hd, mid, j, ?_, hf, ?_, hj⟩
  · rw [hu, ht]; simp
  · intro hmem
    apply hq
    rw [hu, ht]
    simp [hmem]

theorem isImageMatch_ne_nil {m : List Char} (h : IsImageMatch m) : m ≠ [] := by
  obtain ⟨_, _, _, hm, _⟩ := h
  rw [hm]; simp

theorem isImageURL_of_isImageMatch {m : List Char} (h : IsImageMatch m) :
    IsImageURL (stripQuotes m) ∧ m = quote :: stripQuotes m ++ [quote] := by
  obtain ⟨hd, mid, j, hm, hh, hmid, hj⟩ := h
  have hs : stripQuotes m = hd ++ mid ++ j := by
    rw [hm]
    exact stripQuotes_quoted _
  rw [hs]
  refine ⟨⟨⟨hd, mid ++ j, by simp, hh⟩, ⟨hd ++ mid, j, rfl, hj⟩, ?_⟩, hm⟩
  simp only [List.mem_append, not_or]
  exact ⟨⟨foldEq_not_mem hh quote_not_in_http, hmid⟩, foldEq_not_mem hj quote_not_in_jpg⟩

theorem not_dot_of_http : ∀ p ∈ httpLit, '.' ∉ foldOrbit p := by decide

/-- A URL that begins with `http` and ends with `.jpg` is `http`, an
arbitrary middle part, `.jpg`: the two literals cannot overlap. -/
theorem isImageMatch_of_isImageURL {u : List Char} (h : IsImageURL u) :
    IsImageMatch (quote :: u ++ [quote]) := by
  obtain ⟨⟨hd, t, hu, hh⟩, ⟨t', j, hu', hj⟩, hq⟩ := h
  have hdot : '.' ∉ hd := foldEq_not_mem hh not_dot_of_http
  have hlenh : hd.length = 4 := (foldEq_length hh)
  have hlenj : j.length = 4 := (foldEq_length hj)
  have hj0 : ∃ js, j = '.' :: js := by
    cases hj with
    | @cons _ c _ cs hc _ =>
      refine ⟨cs, ?_⟩
      have : c = '.' := by simpa [foldOrbit] using hc
      rw [this]
  obtain ⟨js, hjs⟩ := hj0
  -- the dot of `.jpg` lies behind `http`
  have hle : hd.length ≤ t'.length := by
    by_contra hlt
    have hlt : t'.length < hd.length := Nat.lt_of_not_le hlt
    have h1 : (hd ++ t)[t'.length]? = (t' ++ j)[t'.length]? := by rw [← hu, ← hu']
    rw [List.getElem?_append_left hlt, List.getElem?_append_right (Nat.le_refl _), hjs] at h1
    simp only [Nat.sub_self, List.getElem?_cons_zero] at h1
    exact hdot (List.mem_iff_getElem?.mpr ⟨_, h1⟩)
  have hpre : hd <+: t' :=
    List.prefix_of_prefix_length_le (hu ▸ List.prefix_append hd t)
      (hu' ▸ List.prefix_append t' j) hle
  obtain ⟨mid, hmid⟩ := hpre
  refine ⟨hd, mid, j, ?_, hh, ?_, hj⟩
  · rw [hu', ← hmid]
  · intro hmem
    apply hq
    rw [hu', ← hmid]
    simp [hmem]

theorem leftmostMatches_cons {c : Char} {cs : List Char} {ms : List (List Char)}
    (hno : ∀ m b, c :: cs = m ++ b → ¬ IsImageMatch m) (h : LeftmostMatches cs ms) :
    LeftmostMatches (c :: cs) ms := by
  cases h with
  | done hnone =>
    apply LeftmostMatches.done
    intro a m b hs hm
    cases a with
    | nil => exact hno m b (by simpa using hs) hm
    | cons x xs =>
      simp only [List.cons_append, List.cons.injEq] at hs
      exact hnone xs m b hs.2 hm
  | @step a m b ms' hm hleft hrest =>
    have hs : c :: (a ++ m ++ b) = (c :: a) ++ m ++ b := by simp
    rw [hs]
    apply LeftmostMatches.step hm _ hrest
    intro a₁ m₁ b₁ heq hm₁
    cases a₁ with
    | nil => exact absurd hm₁ (hno m₁ b₁ (by simpa using heq))
    | cons x xs =>
      simp only [List.cons_append, List.cons.injEq] at heq
      have := hleft xs m₁ b₁ (by simpa using heq.2) hm₁
      simpa using this

theorem leftmostMatches_findAllString :
    ∀ (n : Nat) (s : List Char), s.length ≤ n → LeftmostMatches s (findAllString s) := by
  intro n
  induction n with
  | zero =>
    intro s hs
    have : s = [] := List.length_eq_zero.mp (Nat.le_zero.mp hs)
    subst this
    apply LeftmostMatches.done
    intro a m b hs hm
    have : m = [] := by
      have h1 := congrArg List.length hs
      simp only [List.length_nil, List.length_append] at h1
      exact List.length_eq_zero.mp (by omega)
    exact isImageMatch_ne_nil hm this
  | succ n ih =>
    intro s hs
    cases s with
    | nil => exact ih [] (Nat.zero_le _)
    | cons c cs =>
      cases hm : imageMatchAt (c :: cs) with
      | none =>
        rw [findAllString_cons_of_none hm]
        apply leftmostMatches_cons _ (ih cs (by simpa using hs))
        intro m b heq hmatch
        obtain ⟨hd, mid, j, hmeq, hh, hmid, hj⟩ := hmatch
        have := imageMatchAt_of_isImageMatch b hh hmid hj
        rw [← hmeq, ← heq, hm] at this
        exact absurd this (by simp)
      | some u =>
        obtain ⟨rest, hsplit, hfind⟩ := findAllString_cons_of_some hm
        rw [hfind, hsplit]
        have hstep := @LeftmostMatches.step [] (quote :: u ++ [quote]) rest
          (findAllString rest) (isImageMatch_of_imageMatchAt hm)
          (fun _ _ _ _ _ => Nat.zero_le _)
          (ih rest (by
            have h1 := congrArg List.length hsplit
            simp only [List.length_cons, List.length_append, List.length_nil] at h1 hs
            omega))
        simpa using hstep

theorem leftmostMatches_mem {s : List Char} {ms : List (List Char)}
    (h : LeftmostMatches s ms) :
    ∀ m ∈ ms, IsImageMatch m ∧ ∃ pre post, s = pre ++ m ++ post := by
  induction h with
  | done _ => intro m hm; simp at hm
  | @step a m b ms hm _ _ ih =>
    intro m' hm'
    rcases List.mem_cons.mp hm' with rfl | hmem
    · exact ⟨hm, a, b, rfl⟩
    · obtain ⟨h1, pre, post, hb⟩ := ih m' hmem
      exact ⟨h1, a ++ m ++ pre, post, by rw [hb]; simp⟩

theorem mem_findAllString (s m : List Char) (h : m ∈ findAllString s) :
    IsImageMatch m ∧ ∃ pre post, s = pre ++ m ++ post :=
  leftmostMatches_mem (leftmostMatches_findAllString s.length s (Nat.le_refl _)) m h

theorem mem_extractURLs {s u : List Char} (h : u ∈ extractURLs s) :
    IsImageURL u ∧ ∃ pre post, s = pre ++ quote :: u ++ quote :: post := by
  obtain ⟨m, hm, hu⟩ := List.mem_map.mp h
  obtain ⟨hmatch, pre, post, hs⟩ := mem_findAllString s m hm
  obtain ⟨hurl, hmq⟩ := isImageURL_of_isImageMatch hmatch
  rw [hu] at hurl hmq
  refine ⟨hurl, pre, post, ?_⟩
  rw [hs, hmq]
  simp

theorem isImageURL_ne_nil {u : List Char} (h : IsImageURL u) : u ≠ [] := by
  obtain ⟨⟨hd, t, hu, hh⟩, _⟩ := h
  have := (foldEq_length hh)
  intro hnil
  rw [hnil] at hu
  have h0 : hd = [] := (List.append_eq_nil.mp hu.symm).1
  rw [h0] at this
  simp [httpLit] at this

theorem quoted_extractURLs (s : List Char) :
    (extractURLs s).map (fun u => quote :: u ++ [quote]) = findAllString s := by
  unfold extractURLs
  rw [List.map_map]
  conv_rhs => rw [← List.map_id (findAllString s)]
  apply List.map_congr_left
  intro m hm
  exact (isImageURL_of_isImageMatch (mem_findAllString s m hm).1).2.symm

theorem extractURLs_quoted {u : List Char} (h : IsImageURL u) :
    extractURLs (quote :: u ++ [quote]) = [u] := by
  obtain ⟨hd, mid, j, hm, hh, hmid, hj⟩ := isImageMatch_of_isImageURL h
  have hat := imageMatchAt_of_isImageMatch [] hh hmid hj
  rw [← hm, List.append_nil] at hat
  have hu : hd ++ mid ++ j = u := by
    have := congrArg stripQuotes hm
    rw [stripQuotes_quoted, stripQuotes_quoted] at this
    exact this.symm
  rw [hu] at hat
  have hat' : imageMatchAt (quote :: (u ++ [quote])) = some u := hat
  obtain ⟨rest, hsplit, hfind⟩ := findAllString_cons_of_some hat'
  have hrest : rest = [] := by
    have := congrArg List.length hsplit
    simp only [List.length_cons, List.length_append, List.length_nil] at this
    exact List.length_eq_zero.mp (by omega)
  have hcons : quote :: u ++ [quote] = quote :: (u ++ [quote]) := rfl
  rw [extractURLs, hcons, hfind, hrest]
  simp [findAllString, findAllFrom, stripQuotes]

theorem findAllString_of_isImageMatch {m : List Char} (b : List Char) (hm : IsImageMatch m) :
    findAllString (m ++ b) = m :: findAllString b := by
  obtain ⟨hd, mid, j, hmeq, hh, hmid, hj⟩ := hm
  have hat := imageMatchAt_of_isImageMatch b hh hmid hj
  rw [← hmeq] at hat
  have hshape : m ++ b = quote :: ((hd ++ mid ++ j) ++ quote :: b) := by rw [hmeq]; simp
  rw [hshape] at hat ⊢
  obtain ⟨rest, hsplit, hfind⟩ := findAllString_cons_of_some hat
  have hrest : rest = b := by
    have h1 : quote :: ((hd ++ mid ++ j) ++ quote :: b)
        = quote :: ((hd ++ mid ++ j) ++ quote :: rest) := by rw [hsplit]; simp
    exact (List.cons.inj (List.append_cancel_left (List.cons.inj h1).2)).2.symm
  rw [hfind, hrest, hmeq]

theorem findAllString_of_no_match :
    ∀ s : List Char, (∀ a m b, s = a ++ m ++ b → ¬ IsImageMatch m) → findAllString s = [] := by
  intro s
  induction s with
  | nil => intro _; rfl
  | cons c cs ih =>
    intro h
    have hnone : imageMatchAt (c :: cs) = none := by
      cases hm : imageMatchAt (c :: cs) with
      | none => rfl
      | some u =>
        obtain ⟨rest, hsplit, _⟩ := imageMatchAt_eq_some hm
        exact absurd (isImageMatch_of_imageMatchAt hm) (h [] _ rest (by rw [hsplit]; simp))
    rw [findAllString_cons_of_none hnone]
    apply ih
    intro a m b hs
    exact h (c :: a) m b (by rw [hs]; simp)

theorem findAllString_skip (m b : List Char) :
    ∀ a : List Char,
      (∀ a₁ m₁ b₁, a ++ m ++ b = a₁ ++ m₁ ++ b₁ → IsImageMatch m₁ → a.length ≤ a₁.length) →
      findAllString (a ++ m ++ b) = findAllString (m ++ b) := by
  intro a
  induction a with
  | nil => intro _; rfl
  | cons x xs ih =>
    intro h
    have hnone : imageMatchAt (x :: (xs ++ m ++ b)) = none := by
      cases hm : imageMatchAt (x :: (xs ++ m ++ b)) with
      | none => rfl
      | some u =>
        obtain ⟨rest, hsplit, _⟩ := imageMatchAt_eq_some hm
        have := h [] _ rest (by simp only [List.cons_append, List.nil_append]; rw [hsplit]; simp)
          (isImageMatch_of_imageMatchAt hm)
        simp at this
    simp only [List.cons_append]
    rw [findAllString_cons_of_none hnone]
    apply ih
    intro a₁ m₁ b₁ hs hm₁
    have := h (x :: a₁) m₁ b₁ (by simp only [List.cons_append]; rw [hs]) hm₁
    simpa using this

theorem findAllString_of_leftmostMatches {s : List Char} {ms : List (List Char)}
    (h : LeftmostMatches s ms) : ms = findAllString s := by
  induction h with
  | done hno => exact (findAllString_of_no_match _ hno).symm
  | @step a m b ms' hm hleft _ ih =>
    rw [findAllString_skip m b a hleft, findAllString_of_isImageMatch b hm, ih]

/-- C8. A list is the list of the successive leftmost non-overlapping matches
of the pattern in the text exactly when it is the list of the extracted URLs,
each put back between its quotes; every extracted URL begins with `http`, ends
with `.jpg` (case-insensitively), holds no double quote and stands between two
double quotes in the text; and the text made of a double quote, such a URL and
a double quote yields exactly this URL. -/
theorem extractURLs_leftmost_matches (s : List Char) :
    (∀ ms, LeftmostMatches s ms ↔ ms = (extractURLs s).map (fun u => quote :: u ++ [quote])) ∧
    (∀ u ∈ extractURLs s,
      IsImageURL u ∧ ∃ pre post, s = pre ++ quote :: u ++ quote :: post) ∧
    (∀ u, IsImageURL u → extractURLs (quote :: u ++ [quote]) = [u]) := by
  refine ⟨?_, fun u hu => mem_extractURLs hu, fun u hu => extractURLs_quoted hu⟩
  intro ms
  rw [quoted_extractURLs]
  constructor
  · exact findAllString_of_leftmostMatches
  · rintro rfl
    exact leftmostMatches_findAllString s.length s (Nat.le_refl _)

theorem runLoop_key_facts (sha : List Nat → List Nat) (net : Net) (b : List Char) :
    ∀ kv ∈ (runLoop sha net (extractURLs b)).replacements, kv.1 ≠ [] ∧ quote ∉ kv.1 := by
  intro kv hkv
  have hmem : kv.1 ∈ extractURLs b := by
    rw [← mem_firstOccurrences, ← runLoop_keys sha net]
    exact List.mem_map_of_mem Prod.fst hkv
  have hurl := (mem_extractURLs hmem).1
  exact ⟨isImageURL_ne_nil hurl, hurl.2.2⟩

/-! ## One URL that occurs once -/

theorem lookup_single (u p s : List Char) :
    lookup [(u, p)] s = if u.isPrefixOf s then some (u, p) else none := by
  simp only [lookup, List.find?_cons, List.find?_nil]
  cases u.isPrefixOf s <;> rfl

theorem occurrences_cons (u : List Char) (c : Char) (cs : List Char) :
    occurrences u (c :: cs)
      = (if u.isPrefixOf (c :: cs) then 1 else 0) + occurrences u cs := rfl

theorem occurrences_le_append (u t : List Char) :
    ∀ a : List Char, occurrences u t ≤ occurrences u (a ++ t) := by
  intro a
  induction a with
  | nil => exact Nat.le_refl _
  | cons x xs ih =>
    rw [List.cons_append, occurrences_cons]
    omega

theorem occurrences_self_append {u : List Char} (hu : u ≠ []) (c : List Char) :
    ∃ x xs, u = x :: xs ∧ occurrences u (u ++ c) = 1 + occurrences u (xs ++ c) := by
  cases u with
  | nil => exact absurd rfl hu
  | cons x xs =>
    refine ⟨x, xs, rfl, ?_⟩
    have hp : (x :: xs).isPrefixOf (x :: (xs ++ c)) = true := by
      rw [List.isPrefixOf_iff_prefix, ← List.cons_append]
      exact List.prefix_append _ _
    rw [List.cons_append, occurrences_cons, if_pos hp]

theorem replace_single_of_no_occurrence {u : List Char} (hu : u ≠ []) (p : List Char) :
    ∀ s : List Char, occurrences u s = 0 → replace [(u, p)] s = s := by
  intro s
  induction s with
  | nil =>
    intro _
    exact replace_nil (by simpa using hu)
  | cons c cs ih =>
    intro h
    rw [occurrences_cons] at h
    have hnp : u.isPrefixOf (c :: cs) = false := by
      cases hp : u.isPrefixOf (c :: cs)
      · rfl
      · rw [hp] at h; simp at h
    have hcs : occurrences u cs = 0 := by omega
    have hl : lookup [(u, p)] (c :: cs) = none := by rw [lookup_single, hnp]; rfl
    rw [replace_cons_of_none hl, ih hcs]

/-- A replacer with the one key `u` on a text in which `u` occurs once. -/
theorem replace_single_once {u : List Char} (hu : u ≠ []) (p c : List Char) :
    ∀ a : List Char, occurrences u (a ++ u ++ c) = 1 →
      replace [(u, p)] (a ++ u ++ c) = a ++ p ++ c := by
  intro a
  induction a with
  | nil =>
    intro h
    obtain ⟨x, xs, hux, hocc⟩ := occurrences_self_append hu c
    rw [List.nil_append] at h ⊢
    have hc : occurrences u c = 0 := by
      have := occurrences_le_append u c xs
      omega
    have hl : lookup [(u, p)] (u ++ c) = some (u, p) := by
      rw [lookup_single]
      have : u.isPrefixOf (u ++ c) = true := by
        rw [List.isPrefixOf_iff_prefix]; exact List.prefix_append _ _
      rw [this]; rfl
    rw [replace_of_lookup hl hu]
    simp only [List.drop_left, List.nil_append]
    rw [replace_single_of_no_occurrence hu p c hc]
  | cons x xs ih =>
    intro h
    have hge : 1 ≤ occurrences u (xs ++ u ++ c) := by
      obtain ⟨_, _, _, hocc⟩ := occurrences_self_append hu c
      have := occurrences_le_append u (u ++ c) xs
      rw [List.append_assoc]
      omega
    rw [List.cons_append, List.cons_append, occurrences_cons] at h
    have hnp : u.isPrefixOf (x :: (xs ++ u ++ c)) = false := by
      cases hp : u.isPrefixOf (x :: (xs ++ u ++ c))
      · rfl
      · rw [hp] at h; simp only [if_true] at h; omega
    have hrest : occurrences u (xs ++ u ++ c) = 1 := by
      rw [hnp] at h; simpa using h
    have hl : lookup [(u, p)] (x :: (xs ++ u ++ c)) = none := by
      rw [lookup_single, hnp]; rfl
    simp only [List.cons_append]
    rw [replace_cons_of_none hl, ih hrest]

theorem downloadFile_okEnv (sha : List Nat → List Nat) (body : List Nat) :
    downloadFile sha (okEnv body) = (imgPath sha body, none) := by
  simp [downloadFile, okEnv]

theorem hexValue_hexDigit (n : Nat) (h : n < 16) : hexValue (hexDigit n) = some n := by
  interval_cases n <;> decide

theorem hexDigit_of_hexValue {c : Char} {n : Nat} (h : hexValue c = some n) :
    n < 16 ∧ c = hexDigit n := by
  have hc : c = Char.ofNat c.toNat := (Char.ofNat_toNat c).symm
  unfold hexValue at h
  split at h
  · rename_i hr
    simp only [Option.some.injEq] at h
    obtain ⟨h1, h2⟩ := hr
    generalize c.toNat = m at hc h h1 h2
    subst hc h
    interval_cases m <;> exact ⟨by decide, by decide⟩
  · split at h
    · rename_i hr
      simp only [Option.some.injEq] at h
      obtain ⟨h1, h2⟩ := hr
      generalize c.toNat = m at hc h h1 h2
      subst hc h
      interval_cases m <;> exact ⟨by decide, by decide⟩
    · exact absurd h (by simp)

theorem hexString_cons (b : Nat) (bs : List Nat) :
    hexString (b :: bs) = hexDigit (b / 16 % 16) :: hexDigit (b % 16) :: hexString bs := by
  simp [hexString]

/-- Decoding the lowercase hexadecimal text of a list of bytes gives the bytes
back. -/
theorem decodeHex_hexString :
    ∀ bs : List Nat, (∀ b ∈ bs, b < 256) → decodeHex (hexString bs) = some bs := by
  intro bs
  induction bs with
  | nil => intro _; rfl
  | cons b bs ih =>
    intro h
    have hb : b < 256 := h b (List.mem_cons_self _ _)
    have hbs := ih (fun x hx => h x (List.mem_cons_of_mem _ hx))
    rw [hexString_cons]
    simp only [decodeHex, hexValue_hexDigit _ (Nat.mod_lt _ (by decide : 0 < 16)), hbs,
      Option.some.injEq, List.cons.injEq, and_true]
    omega

/-- A text that encodes a list of bytes is the lowercase hexadecimal text of
these bytes. -/
theorem hexString_of_decodeHex :
    ∀ (bs : List Nat) (s : List Char), decodeHex s = some bs → s = hexString bs := by
  intro bs
  induction bs with
  | nil =>
    intro s hs
    match s with
    | [] => rfl
    | [_] => simp [decodeHex] at hs
    | hi :: lo :: rest =>
      simp only [decodeHex] at hs
      split at hs <;> simp at hs
  | cons b bs ih =>
    intro s hs
    match s with
    | [] => simp [decodeHex] at hs
    | [_] => simp [decodeHex] at hs
    | hi :: lo :: rest =>
      simp only [decodeHex] at hs
      split at hs
      · rename_i h l bs' hh hl hrest
        simp only [Option.some.injEq, List.cons.injEq] at hs
        obtain ⟨hval, hbs⟩ := hs
        obtain ⟨h1, e1⟩ := hexDigit_of_hexValue hh
        obtain ⟨h2, e2⟩ := hexDigit_of_hexValue hl
        have hhi : b / 16 % 16 = h := by omega
        have hlo : b % 16 = l := by omega
        rw [hexString_cons, hhi, hlo, ← e1, ← e2, ← ih rest (hbs ▸ hrest)]
      · simp at hs

/-- C2. The text holds exactly one match of the pattern, `"u"`, and `u`
occurs in it once; the one fetch succeeds with body `body`. Then the text
written back is the original text with `u` replaced by `img/`, a name and
`.jpg`, everything else (the two quotes included) unchanged, where the name is
the one text of lowercase hexadecimal digits, two per byte, that encodes the
SHA-256 digest of `body`. -/
theorem process_single_url (sha : List Nat → List Nat) (net : Net) (order : MapOrder)
    (mode : Nat) (w : Bool) (pre u post : List Char) (body : List Nat)
    (hbytes : ∀ x ∈ sha body, x < 256)
    (hurls : extractURLs (pre ++ quote :: u ++ quote :: post) = [u])
    (honce : occurrences u (pre ++ quote :: u ++ quote :: post) = 1)
    (hfetch : net [] (resolvedSizeURL u) = okEnv body) :
    ∃ name : List Char,
      decodeHex name = some (sha body) ∧
      (∀ other, decodeHex other = some (sha body) → other = name) ∧
      (process sha net order (readable mode (pre ++ quote :: u ++ quote :: post) w)).written
        = some (pre ++ quote :: (['i', 'm', 'g', '/'] ++ name ++ ['.', 'j', 'p', 'g'])
                  ++ quote :: post, mode) := by
  refine ⟨hexString (sha body), decodeHex_hexString _ hbytes,
    fun other h => hexString_of_decodeHex _ other h, ?_⟩
  have hu : u ≠ [] :=
    isImageURL_ne_nil (mem_extractURLs (s := pre ++ quote :: u ++ quote :: post)
      (by rw [hurls]; exact List.mem_singleton_self u)).1
  have hloop : (runLoop sha net (extractURLs (pre ++ quote :: u ++ quote :: post))).replacements
      = [(u, imgPath sha body)] := by
    rw [hurls]
    simp [runLoop, loopStep, hfetch, downloadFile_okEnv]
  have hargs : replacerArgs sha net order (pre ++ quote :: u ++ quote :: post)
      = [(u, imgPath sha body)] := by
    unfold replacerArgs
    have := order.perm (runLoop sha net (extractURLs (pre ++ quote :: u ++ quote :: post))).replacements
    rw [hloop] at this ⊢
    exact List.perm_singleton.mp this
  have hshape : pre ++ quote :: u ++ quote :: post = (pre ++ [quote]) ++ u ++ (quote :: post) := by
    simp
  rw [process_readable, hargs]
  rw [hshape] at honce ⊢
  rw [replace_single_once hu _ _ _ honce]
  simp [imgPath, jpgLit]

/-- C2 at a document with one image reference and a digest of the four bytes
0, 255, 10 and 171: the file is named `00ff0aab.jpg`. -/
theorem process_single_url_witness :
    (∀ x ∈ sampleSha4 [171, 2], x < 256) ∧
    extractURLs (txt "![x](" ++ quote :: txt "http://example.com/photo.jpg"
        ++ quote :: txt ")") = [txt "http://example.com/photo.jpg"] ∧
    occurrences (txt "http://example.com/photo.jpg")
      (txt "![x](" ++ quote :: txt "http://example.com/photo.jpg" ++ quote :: txt ")") = 1 ∧
    (process sampleSha4 (fun _ _ => okEnv [171, 2]) reverseOrder
      (readable 420 (txt "![x](" ++ quote :: txt "http://example.com/photo.jpg"
        ++ quote :: txt ")") true)).written
      = some (txt "![x](\"img/00ff0aab.jpg\")", 420) := by
  refine ⟨by decide, by decide, by decide, ?_⟩
  obtain ⟨name, _, huniq, hw⟩ :=
    process_single_url sampleSha4 (fun _ _ => okEnv [171, 2]) reverseOrder 420 true
      (txt "![x](") (txt "http://example.com/photo.jpg") (txt ")") [171, 2]
      (by decide) (by decide) (by decide) rfl
  rw [hw, ← huniq (txt "00ff0aab") (by decide)]
  decide

/-! ## Failed fetches -/

theorem downloadFile_path_of_err (sha : List Nat → List Nat) (env : CallEnv) (e : Err)
    (herr : (downloadFile sha env).2 = some e) (hkind : e ≠ Err.rename) :
    (downloadFile sha env).1 = [] := by
  unfold downloadFile at herr ⊢
  split
  · rfl
  · rename_i htemp
    rw [if_neg htemp] at herr
    split
    · rfl
    · rename_i r hget
      simp only [hget] at herr
      split
      · rfl
      · rename_i hstatus
        rw [if_neg hstatus] at herr
        split
        · rfl
        · rename_i hcopy
          rw [if_neg hcopy] at herr
          split
          · rfl
          · rename_i hmkdir
            rw [if_neg hmkdir] at herr
            exfalso
            split at herr
            · simp at herr
            · simp only [Option.some.injEq] at herr
              exact hkind herr.symm

/-- With keys of which none is a proper prefix of another, the pair whose key
starts the text is the one that is applied. -/
theorem lookup_of_mem {l : List (List Char × List Char)}
    (hpf : ∀ a ∈ l, ∀ b ∈ l, a.1 <+: b.1 → a = b) {kv : List Char × List Char} (hkv : kv ∈ l)
    {s : List Char} (hs : kv.1 <+: s) : lookup l s = some kv := by
  cases h : lookup l s with
  | none => exact absurd hs (lookup_eq_none.mp h kv hkv)
  | some kv' =>
    obtain ⟨hmem, hp⟩ := lookup_mem h
    rcases List.prefix_or_prefix_of_prefix hs hp with h1 | h1
    · rw [hpf kv hkv kv' hmem h1]
    · rw [hpf kv' hmem kv hkv h1]

/-- C4, as amended. A fetch that fails in any way but at the final rename
returns the empty path, which is the entry recorded for its URL; and when no
extracted URL is a proper prefix of another one, every place where the text
holds this URL between double quotes is rewritten to two double quotes with
nothing between them. -/
theorem process_blanks_failed_fetch (sha : List Nat → List Nat) (net : Net)
    (order : MapOrder) (mode : Nat) (b : List Char) (w : Bool) (c : Call) (e : Err)
    (hc : c ∈ (process sha net order (readable mode b w)).calls)
    (herr : c.err = some e) (hkind : e ≠ Err.rename) :
    c.path = [] ∧
    (c.original, []) ∈ replacerArgs sha net order b ∧
    (PrefixFree (extractURLs b) →
      ∀ pre post, b = pre ++ quote :: c.original ++ quote :: post →
        (process sha net order (readable mode b w)).written
          = some (replace (replacerArgs sha net order b) pre
                    ++ quote :: quote :: replace (replacerArgs sha net order b) post, mode)) := by
  rw [process_readable] at hc ⊢
  simp only at hc
  have hinv := loopInv_runLoop sha net (extractURLs b)
  obtain ⟨_, env, henv⟩ := hinv.2 c hc
  have hpath : c.path = [] := by
    have h1 : (downloadFile sha env).2 = some e := by rw [← henv]; exact herr
    have h2 := downloadFile_path_of_err sha env e h1 hkind
    rw [← henv] at h2
    exact h2
  have hmem : (c.original, ([] : List Char)) ∈ replacerArgs sha net order b := by
    unfold replacerArgs
    rw [(order.perm _).mem_iff, hinv.1, ← hpath]
    exact List.mem_map_of_mem (fun c => (c.original, c.path)) hc
  refine ⟨hpath, hmem, ?_⟩
  intro hfree pre post hb
  have hfacts : ∀ kv ∈ replacerArgs sha net order b, kv.1 ≠ [] ∧ quote ∉ kv.1 := by
    intro kv hkv
    exact runLoop_key_facts sha net b kv ((order.perm _).mem_iff.mp hkv)
  have hne : ∀ kv ∈ replacerArgs sha net order b, kv.1 ≠ [] := fun kv h => (hfacts kv h).1
  have hq : ∀ kv ∈ replacerArgs sha net order b, quote ∉ kv.1 := fun kv h => (hfacts kv h).2
  have hpf : ∀ x ∈ replacerArgs sha net order b, ∀ y ∈ replacerArgs sha net order b,
      x.1 <+: y.1 → x = y := by
    intro x hx y hy hxy
    exact replacements_unique sha net _ hfree x ((order.perm _).mem_iff.mp hx) y
      ((order.perm _).mem_iff.mp hy) hxy
  have hu : replace (replacerArgs sha net order b) c.original = [] := by
    have hl := lookup_of_mem hpf hmem (s := c.original) (List.prefix_refl _)
    rw [replace_of_lookup hl (hne _ hmem)]
    simp [replace_nil hne]
  have h1 := replace_append_of_not_mem hne hq (c.original ++ quote :: post) pre.length pre
    (Nat.le_refl _)
  have h2 := replace_append_of_not_mem hne hq post c.original.length c.original (Nat.le_refl _)
  have hshape : pre ++ quote :: c.original ++ quote :: post
      = pre ++ quote :: (c.original ++ quote :: post) := by simp
  have hrw : replace (replacerArgs sha net order b) b
      = replace (replacerArgs sha net order b) pre
          ++ quote :: quote :: replace (replacerArgs sha net order b) post := by
    generalize replacerArgs sha net order b = args at hu h1 h2 ⊢
    rw [hb, hshape, h1, h2, hu]
    simp
  simp only [hrw]

/-- C4, as amended, at a document whose one fetch is answered with status 404. -/
theorem process_blanks_failed_fetch_witness :
    (process sampleSha (fun _ _ => notFoundEnv) insertionOrder
        (readable 420 (txt "<img src=\"http://example.com/s220/photo.jpg\">") true)).calls
      = [{ original := txt "http://example.com/s220/photo.jpg",
           target := txt "http://example.com/s3200/photo.jpg",
           path := [], err := some (Err.badStatus 404) }] ∧
    PrefixFree (extractURLs (txt "<img src=\"http://example.com/s220/photo.jpg\">")) ∧
    (process sampleSha (fun _ _ => notFoundEnv) insertionOrder
        (readable 420 (txt "<img src=\"http://example.com/s220/photo.jpg\">") true)).written
      = some (txt "<img src=\"\">", 420) := by
  have h := process_blanks_failed_fetch sampleSha (fun _ _ => notFoundEnv) insertionOrder 420
    (txt "<img src=\"http://example.com/s220/photo.jpg\">") true
    { original := txt "http://example.com/s220/photo.jpg",
      target := txt "http://example.com/s3200/photo.jpg",
      path := [], err := some (Err.badStatus 404) }
    (Err.badStatus 404) (by decide) rfl (by decide)
  have hfree : PrefixFree (extractURLs (txt "<img src=\"http://example.com/s220/photo.jpg\">")) := by
    unfold PrefixFree; decide
  refine ⟨by decide, hfree, ?_⟩
  rw [h.2.2 hfree (txt "<img src=") (txt ">") (by decide)]
  decide

/-- C4, as stated, fails. In both texts the first fetch succeeds with the
body `[171]` and the second fetch is answered with status 404, so the second
URL is mapped to the empty string. In the first text the first URL is a prefix
of the second one and, visited first, is applied to the occurrence of the
second one, which becomes `img/ab.jpg.jpg`. In the second text the failed URL
`http://b.jpg` also occurs inside the first URL, and that occurrence is
replaced together with the first URL, not by the empty string. -/
theorem process_failed_fetch_not_always_blank :
    (process sampleSha (fun hist _ => if hist = [] then okEnv [171] else notFoundEnv)
        insertionOrder
        (readable 420 (txt "\"http://a.jpg\" \"http://a.jpg.jpg\"") true))
      = { calls := [{ original := txt "http://a.jpg", target := txt "http://a.jpg",
                      path := txt "img/ab.jpg", err := none },
                    { original := txt "http://a.jpg.jpg", target := txt "http://a.jpg.jpg",
                      path := [], err := some (Err.badStatus 404) }],
          written := some (txt "\"img/ab.jpg\" \"img/ab.jpg.jpg\"", 420),
          result := none } ∧
    (process sampleSha (fun hist _ => if hist = [] then okEnv [171] else notFoundEnv)
        insertionOrder
        (readable 420 (txt "\"http://a/http://b.jpg\" \"http://b.jpg\"") true))
      = { calls := [{ original := txt "http://a/http://b.jpg",
                      target := txt "http://a/http://b.jpg",
                      path := txt "img/ab.jpg", err := none },
                    { original := txt "http://b.jpg", target := txt "http://b.jpg",
                      path := [], err := some (Err.badStatus 404) }],
          written := some (txt "\"img/ab.jpg\" \"\"", 420),
          result := none } := by
  decide

/-- The rename of line 112 fails: `downloadFile` returns the path of the file
that was not created together with the error, and `process` records this path
as the replacement. -/
theorem rename_failure_keeps_path :
    downloadFile sampleSha { okEnv [171] with renameOk := false }
      = (txt "img/ab.jpg", some Err.rename) ∧
    (process sampleSha (fun _ _ => { okEnv [171] with renameOk := false }) insertionOrder
        (readable 420 (txt "\"http://example.com/photo.jpg\"") true)).written
      = some (txt "\"img/ab.jpg\"", 420) := by
  decide

/-! ## The size pattern -/

theorem scaleFrom_drop (s : List Char) : ∀ n, scaleFrom n s = scaleFrom 0 (s.drop n) := by
  induction s with
  | nil => intro n; simp [scaleFrom]
  | cons c cs ih =>
    intro n
    cases n with
    | zero => rfl
    | succ n => rw [List.drop_succ_cons, ← ih n, scaleFrom]

theorem scaleMatchAt_eq_none {s : List Char} : scaleMatchAt s = none ↔ sizeStart s = false := by
  match s with
  | [] => simp [scaleMatchAt, sizeStart]
  | [_] => simp [scaleMatchAt, sizeStart]
  | [c₀, c₁] =>
    simp only [scaleMatchAt, sizeStart, List.takeWhile_nil, if_true, iff_true]
    split <;> rfl
  | c₀ :: c₁ :: c₂ :: rest =>
    by_cases h01 : c₀ = '/' ∧ c₁ ∈ foldOrbit 's'
    · by_cases h2 : c₂.isDigit = true
      · have hne : List.takeWhile Char.isDigit (c₂ :: rest) ≠ [] := by
          rw [List.takeWhile_cons_of_pos h2]; simp
        have hs : sizeStart (c₀ :: c₁ :: c₂ :: rest) = true := by
          simp [sizeStart, h01.1, h01.2, h2]
        have hm : scaleMatchAt (c₀ :: c₁ :: c₂ :: rest) ≠ none := by
          simp only [scaleMatchAt, if_pos h01, if_neg hne]
          split <;> simp
        constructor
        · intro h; exact absurd h hm
        · intro h; rw [hs] at h; exact absurd h (by simp)
      · have hnil : List.takeWhile Char.isDigit (c₂ :: rest) = [] := by
          rw [List.takeWhile_cons_of_neg h2]
        simp only [scaleMatchAt, if_pos h01, hnil, if_true, sizeStart, true_iff]
        simp [h2]
    · simp only [scaleMatchAt, if_neg h01, sizeStart, true_iff]
      rw [not_and_or] at h01
      rcases h01 with h | h
      · simp [h]
      · simp [h]

theorem scaleMatchAt_eq_some {s : List Char} {n : Nat} (h : scaleMatchAt s = some n) :
    ∃ m b, s = m ++ b ∧ m.length = n ∧ IsSizeMatch m b := by
  match s with
  | [] => simp [scaleMatchAt] at h
  | [_] => simp [scaleMatchAt] at h
  | c₀ :: c₁ :: rest =>
    simp only [scaleMatchAt] at h
    split at h
    · rename_i h01
      split at h
      · exact absurd h (by simp)
      · rename_i hne
        have hsplit := List.takeWhile_append_dropWhile Char.isDigit rest
        have hdig : ∀ d ∈ List.takeWhile Char.isDigit rest, d.isDigit = true :=
          fun d hd => List.mem_takeWhile_imp hd
        split at h
        · rename_i r hm
          obtain ⟨hh, hafter, hf⟩ := matchFold_eq_some.mp hm
          simp only [Option.some.injEq] at h
          refine ⟨'/' :: c₁ :: List.takeWhile Char.isDigit rest ++ hh, r, ?_, ?_,
            c₁, List.takeWhile Char.isDigit rest, hh, rfl, h01.2, hne, hdig, Or.inl hf⟩
          · rw [h01.1]
            conv_lhs => rw [← hsplit, hafter]
            simp
          · have := (foldEq_length hf)
            simp only [List.length_cons, List.length_nil] at this
            simp only [List.length_cons, List.length_append, this]
            omega
        · rename_i hm
          simp only [Option.some.injEq] at h
          refine ⟨'/' :: c₁ :: List.takeWhile Char.isDigit rest, List.dropWhile Char.isDigit rest,
            ?_, ?_, c₁, List.takeWhile Char.isDigit rest, [], by simp, h01.2, hne, hdig,
            Or.inr ⟨rfl, ?_, hm⟩⟩
          · rw [h01.1]
            conv_lhs => rw [← hsplit]
            simp
          · simp only [List.length_cons]
            omega
          · intro d hd
            have := List.head?_dropWhile_not Char.isDigit rest
            rw [Option.mem_def] at hd
            rw [hd] at this
            simpa using this
    · exact absurd h (by simp)

theorem resolvedSizeURL_cons_of_none {c : Char} {cs : List Char}
    (h : scaleMatchAt (c :: cs) = none) :
    resolvedSizeURL (c :: cs) = c :: resolvedSizeURL cs := by
  simp [resolvedSizeURL, scaleFrom, h]

theorem resolvedSizeURL_of_match {m b : List Char} (hm : m ≠ [])
    (h : scaleMatchAt (m ++ b) = some m.length) :
    resolvedSizeURL (m ++ b) = s3200 ++ resolvedSizeURL b := by
  cases m with
  | nil => exact absurd rfl hm
  | cons c cs =>
    have h' : scaleMatchAt (c :: (cs ++ b)) = some (cs.length + 1) := h
    show scaleFrom 0 (c :: (cs ++ b)) = s3200 ++ scaleFrom 0 b
    rw [scaleFrom, h']
    simp only [Nat.add_sub_cancel]
    rw [scaleFrom_drop, List.drop_left]

theorem resolvedSizeURL_of_noSizeStart :
    ∀ u : List Char, NoSizeStart u → resolvedSizeURL u = u := by
  intro u
  induction u with
  | nil => intro _; rfl
  | cons c cs ih =>
    intro h
    have h0 : sizeStart (c :: cs) = false := h _ (by simp)
    have hcs : NoSizeStart cs := fun t ht => h t (by
      rw [List.tails_cons]; exact List.mem_cons_of_mem _ ht)
    rw [resolvedSizeURL_cons_of_none (scaleMatchAt_eq_none.mpr h0), ih hcs]

theorem resolvedSizeURL_append_of_no_start (rest : List Char) :
    ∀ a : List Char, (∀ t ∈ a.tails, t ≠ [] → sizeStart (t ++ rest) = false) →
      resolvedSizeURL (a ++ rest) = a ++ resolvedSizeURL rest := by
  intro a
  induction a with
  | nil => intro _; rfl
  | cons c cs ih =>
    intro h
    have h0 : sizeStart (c :: cs ++ rest) = false := h _ (by simp) (by simp)
    have hcs : ∀ t ∈ cs.tails, t ≠ [] → sizeStart (t ++ rest) = false := fun t ht hne =>
      h t (by rw [List.tails_cons]; exact List.mem_cons_of_mem _ ht) hne
    rw [List.cons_append] at h0 ⊢
    rw [resolvedSizeURL_cons_of_none (scaleMatchAt_eq_none.mpr h0), ih hcs]
    rfl

theorem takeWhile_dropWhile_of_head {p : Char → Bool} {b : List Char}
    (h : ∀ d ∈ b.head?, p d = false) : b.takeWhile p = [] ∧ b.dropWhile p = b := by
  cases b with
  | nil => simp
  | cons x xs =>
    have hx : p x = false := h x (by simp)
    simp [List.takeWhile_cons, List.dropWhile_cons, hx]

theorem isSizeMatch_ne_nil {m b : List Char} (h : IsSizeMatch m b) : m ≠ [] := by
  obtain ⟨c, ds, hh, hm, _⟩ := h
  rw [hm]; simp

/-- What the specification calls a match is what `scaleMatchAt` finds. -/
theorem scaleMatchAt_of_isSizeMatch {m b : List Char} (h : IsSizeMatch m b) :
    scaleMatchAt (m ++ b) = some m.length := by
  obtain ⟨c, ds, hh, hm, hc, hds, hdig, hrest⟩ := h
  have hshape : m ++ b = '/' :: c :: (ds ++ (hh ++ b)) := by rw [hm]; simp
  have hhead : ∀ d ∈ (hh ++ b).head?, Char.isDigit d = false := by
    rcases hrest with hf | ⟨hnil, hb, _⟩
    · cases hf with
      | @cons _ x _ xs hx _ =>
        intro d hd
        have hxd : x = '-' := by simpa [foldOrbit] using hx
        simp only [List.cons_append, List.head?_cons, Option.mem_def, Option.some.injEq] at hd
        rw [← hd, hxd]; decide
    · rw [hnil]; exact hb
  obtain ⟨ht, hd⟩ := takeWhile_dropWhile_of_head hhead
  have htake : List.takeWhile Char.isDigit (ds ++ (hh ++ b)) = ds := by
    rw [List.takeWhile_append_of_pos hdig, ht, List.append_nil]
  have hdrop : List.dropWhile Char.isDigit (ds ++ (hh ++ b)) = hh ++ b := by
    rw [List.dropWhile_append_of_pos hdig, hd]
  rw [hshape]
  simp only [scaleMatchAt, hc, and_self, if_true, htake, hdrop, if_neg hds]
  rcases hrest with hf | ⟨hnil, _, hnone⟩
  · have hmf : matchFold ['-', 'h'] (hh ++ b) = some b := matchFold_eq_some.mpr ⟨hh, rfl, hf⟩
    have hlen := (foldEq_length hf)
    simp only [List.length_cons, List.length_nil] at hlen
    simp only [hmf, hm, List.length_cons, List.length_append, hlen, Option.some.injEq]
    omega
  · rw [hnil, List.nil_append, hnone]
    simp only [hm, hnil, List.append_nil, List.length_cons, Option.some.injEq]
    omega

theorem allReplaced_cons {c : Char} {cs out : List Char} (h0 : sizeStart (c :: cs) = false)
    (h : AllReplaced cs out) : AllReplaced (c :: cs) (c :: out) := by
  cases h with
  | done hno =>
    apply AllReplaced.done
    intro t ht
    rw [List.tails_cons, List.mem_cons] at ht
    rcases ht with rfl | ht
    · exact h0
    · exact hno t ht
  | @step a m b out' hleft hm hrest =>
    have hs : c :: (a ++ m ++ b) = (c :: a) ++ m ++ b := by simp
    have ho : c :: (a ++ s3200 ++ out') = (c :: a) ++ s3200 ++ out' := by simp
    rw [hs, ho]
    apply AllReplaced.step _ hm hrest
    intro t ht hne
    rw [List.tails_cons, List.mem_cons] at ht
    rcases ht with rfl | ht
    · rw [← hs]; exact h0
    · exact hleft t ht hne

theorem allReplaced_resolvedSizeURL :
    ∀ (n : Nat) (s : List Char), s.length ≤ n → AllReplaced s (resolvedSizeURL s) := by
  intro n
  induction n with
  | zero =>
    intro s hs
    have : s = [] := List.length_eq_zero.mp (Nat.le_zero.mp hs)
    subst this
    exact AllReplaced.done (by unfold NoSizeStart; decide)
  | succ n ih =>
    intro s hs
    cases s with
    | nil => exact ih [] (Nat.zero_le _)
    | cons c cs =>
      cases hm : scaleMatchAt (c :: cs) with
      | none =>
        rw [resolvedSizeURL_cons_of_none hm]
        exact allReplaced_cons (scaleMatchAt_eq_none.mp hm) (ih cs (by simpa using hs))
      | some k =>
        obtain ⟨m, b, hsplit, hlen, hmatch⟩ := scaleMatchAt_eq_some hm
        rw [hsplit] at hm ⊢
        rw [← hlen] at hm
        rw [resolvedSizeURL_of_match (isSizeMatch_ne_nil hmatch) hm]
        have hb : b.length ≤ n := by
          have h1 := congrArg List.length hsplit
          have h2 : 0 < m.length := List.length_pos.mpr (isSizeMatch_ne_nil hmatch)
          simp only [List.length_cons, List.length_append] at h1 hs
          omega
        have hstep := @AllReplaced.step [] m b
          (resolvedSizeURL b) (by intro t ht hne; simp at ht; exact absurd ht hne)
          hmatch (ih b hb)
        simpa using hstep

theorem resolvedSizeURL_of_allReplaced {s out : List Char} (h : AllReplaced s out) :
    out = resolvedSizeURL s := by
  induction h with
  | done hno => exact (resolvedSizeURL_of_noSizeStart _ hno).symm
  | @step a m b out' hleft hm _ ih =>
    have h1 : resolvedSizeURL (a ++ (m ++ b)) = a ++ resolvedSizeURL (m ++ b) :=
      resolvedSizeURL_append_of_no_start (m ++ b) a (fun t ht hne => by
        have := hleft t ht hne
        rwa [List.append_assoc] at this)
    rw [List.append_assoc a m b, h1,
      resolvedSizeURL_of_match (isSizeMatch_ne_nil hm) (scaleMatchAt_of_isSizeMatch hm), ← ih]
    simp

/-- C6, as amended. The resolved-size transform replaces every match of the
size pattern, taken from left to right without overlap, by `/s3200` and leaves
all other characters unchanged, and this determines its result. -/
theorem resolvedSizeURL_replaces_every_match (u out : List Char) :
    AllReplaced u out ↔ out = resolvedSizeURL u := by
  constructor
  · exact resolvedSizeURL_of_allReplaced
  · rintro rfl
    exact allReplaced_resolvedSizeURL u.length u (Nat.le_refl _)

/-- C6, as stated, fails: in a URL with two matches the second one is
replaced as well. -/
theorem resolvedSizeURL_replaces_second_match :
    resolvedSizeURL (txt "http://a/s1/s2.jpg") = txt "http://a/s3200/s3200.jpg" ∧
    resolvedSizeURL (txt "http://a/s1/s2.jpg") ≠ txt "http://a/s3200/s2.jpg" := by
  decide

theorem isSizeSegment_eq_true {seg : List Char} (h : isSizeSegment seg = true) :
    ∃ c ds hh, seg = c :: ds ++ hh ∧ c ∈ foldOrbit 's' ∧ ds ≠ [] ∧
      (∀ d ∈ ds, d.isDigit = true) ∧ (hh = [] ∨ FoldEq ['-', 'h'] hh) := by
  cases seg with
  | nil => simp [isSizeSegment] at h
  | cons c rest =>
    simp only [isSizeSegment, Bool.and_eq_true, decide_eq_true_eq, Bool.not_eq_true',
      Bool.or_eq_true, beq_iff_eq] at h
    obtain ⟨⟨hc, hds⟩, htail⟩ := h
    have hsplit := List.takeWhile_append_dropWhile Char.isDigit rest
    refine ⟨c, rest.takeWhile Char.isDigit, rest.dropWhile Char.isDigit,
      by rw [List.cons_append, hsplit], hc,
      ?_, fun d hd => List.mem_takeWhile_imp hd, ?_⟩
    · intro hnil
      rw [hnil] at hds
      simp at hds
    · rcases htail with hempty | hmatch
      · left
        simpa using hempty
      · right
        obtain ⟨hh, hs, hf⟩ := matchFold_eq_some.mp hmatch
        rw [List.append_nil] at hs
        rw [hs]; exact hf

theorem sizeStart_append_slash {t : List Char} (r : List Char) (hne : t ≠ [])
    (h : sizeStart t = false) : sizeStart (t ++ '/' :: r) = false := by
  match t with
  | [] => exact absurd rfl hne
  | [x] =>
    cases r with
    | nil => rfl
    | cons y ys =>
      have : ¬ ('/' ∈ foldOrbit 's') := by decide
      simp [sizeStart, this]
  | [x, y] =>
    have : Char.isDigit '/' = false := by decide
    simp [sizeStart, this]
  | x :: y :: z :: rest => exact h

/-- C7, as amended. A URL in which no slash is followed by an `s` and a digit
is its own fetch target; and when the only such place of a URL is the start of
a path segment of the form `s<digits>` or `s<digits>-h`, the fetch target is
the URL with this segment replaced by `s3200`. -/
theorem resolvedSizeURL_of_segments :
    (∀ u, NoSizeStart u → resolvedSizeURL u = u) ∧
    (∀ pre seg post, NoSizeStart pre → isSizeSegment seg = true →
      (post = [] ∨ post.head? = some '/') → NoSizeStart post →
      resolvedSizeURL (pre ++ '/' :: seg ++ post) = pre ++ '/' :: txt "s3200" ++ post) := by
  refine ⟨resolvedSizeURL_of_noSizeStart, ?_⟩
  intro pre seg post hpre hseg hpost hnopost
  obtain ⟨c, ds, hh, hsegeq, hc, hds, hdig, htail⟩ := isSizeSegment_eq_true hseg
  have hmatch : IsSizeMatch ('/' :: seg) post := by
    refine ⟨c, ds, hh, by rw [hsegeq]; simp, hc, hds, hdig, ?_⟩
    rcases htail with hnil | hf
    · right
      refine ⟨hnil, ?_, ?_⟩
      · rcases hpost with hp | hp
        · rw [hp]; simp
        · rw [hp]
          intro d hd
          simp only [Option.mem_def, Option.some.injEq] at hd
          rw [← hd]; decide
      · rcases hpost with hp | hp
        · rw [hp]; rfl
        · cases post with
          | nil => rfl
          | cons x xs =>
            simp only [List.head?_cons, Option.some.injEq] at hp
            rw [hp]
            simp [matchFold, foldOrbit]
    · exact Or.inl hf
  have hleft : ∀ t ∈ pre.tails, t ≠ [] → sizeStart (t ++ ('/' :: seg ++ post)) = false := by
    intro t ht hne
    have := sizeStart_append_slash (seg ++ post) hne (hpre t ht)
    simpa using this
  have h1 := resolvedSizeURL_append_of_no_start ('/' :: seg ++ post) pre hleft
  have h2 := resolvedSizeURL_of_match (isSizeMatch_ne_nil hmatch) (scaleMatchAt_of_isSizeMatch hmatch)
  have h3 := resolvedSizeURL_of_noSizeStart post hnopost
  have hshape : pre ++ '/' :: seg ++ post = pre ++ ('/' :: seg ++ post) := by simp
  rw [hshape, h1, h2, h3]
  simp [s3200, txt]

/-- C7, as amended, at a URL without a size segment and at one with the
segment `s220`. -/
theorem resolvedSizeURL_of_segments_witness :
    NoSizeStart (txt "http://example.com/sizes/photo.jpg") ∧
    resolvedSizeURL (txt "http://example.com/sizes/photo.jpg")
      = txt "http://example.com/sizes/photo.jpg" ∧
    isSizeSegment (txt "s220") = true ∧
    resolvedSizeURL (txt "http://example.com" ++ '/' :: txt "s220" ++ txt "/foo.jpg")
      = txt "http://example.com" ++ '/' :: txt "s3200" ++ txt "/foo.jpg" :=
  ⟨by unfold NoSizeStart; decide,
   resolvedSizeURL_of_segments.1 _ (by unfold NoSizeStart; decide),
   by decide,
   resolvedSizeURL_of_segments.2 (txt "http://example.com") (txt "s220") (txt "/foo.jpg")
    (by unfold NoSizeStart; decide) (by decide) (Or.inr rfl) (by unfold NoSizeStart; decide)⟩

/-- C7, as stated, fails. No path segment of `http://a/s1x/b.jpg` has the
form `s<digits>` or `s<digits>-h`, yet the fetch target differs from the URL;
and `http://a/s9k/s220/foo.jpg` has exactly one such segment, yet the fetch
target differs in another segment as well. -/
theorem resolvedSizeURL_rewrites_inside_segment :
    (∀ seg ∈ pathSegments (txt "http://a/s1x/b.jpg"), isSizeSegment seg = false) ∧
    resolvedSizeURL (txt "http://a/s1x/b.jpg") = txt "http://a/s3200x/b.jpg" ∧
    resolvedSizeURL (txt "http://a/s1x/b.jpg") ≠ txt "http://a/s1x/b.jpg" ∧
    (pathSegments (txt "http://a/s9k/s220/foo.jpg")).filter isSizeSegment = [txt "s220"] ∧
    resolvedSizeURL (txt "http://a/s9k/s220/foo.jpg") = txt "http://a/s3200k/s3200/foo.jpg" ∧
    resolvedSizeURL (txt "http://a/s9k/s220/foo.jpg") ≠ txt "http://a/s9k/s3200/foo.jpg" := by
  decide

/-! ## Sample runs -/

/-- Of the keys that start the text the replacer applies the one listed
first, not the longest one, and a key listed twice keeps its first value. -/
theorem replace_sample_argument_order :
    replace [(txt "abracadabra", txt "poof"), (txt "abracadabrakazam", txt "splat"),
        (txt "abraham", txt "lincoln"), (txt "abrasion", txt "scrape"),
        (txt "abraham", txt "isaac")] (txt "abracadabrakazam abraham")
      = txt "poofkazam lincoln" := by
  decide

/-- An empty key matches once at every position, the end included, before or
after a non-empty key according to the order of the arguments. -/
theorem replace_sample_empty_key :
    replace [(txt "", txt "X"), (txt "o", txt "O")] (txt "oiio") = txt "XOXiXiXOX" ∧
    replace [(txt "o", txt "O"), (txt "", txt "X")] (txt "oiio") = txt "OXiXiOX" := by
  decide

/-- The extractor ignores case, keeps duplicates, and passes over quoted text
that does not begin with `http` or does not end with `.jpg`. -/
theorem extractURLs_sample :
    extractURLs (txt "<a href=\"HTTP://x/A.JPG\"><img src=\"http://x/s220/a.jpg\"></a> \"https://y/b.png\" \"ftp://y/c.jpg\" \"http://x/s220/a.jpg\"")
      = [txt "HTTP://x/A.JPG", txt "http://x/s220/a.jpg", txt "http://x/s220/a.jpg"] := by
  decide

/-- The size pattern takes all the digits and the `-h` that follows them, in
either case. -/
theorem resolvedSizeURL_sample :
    resolvedSizeURL (txt "http://1.bp.example.com/-a/b/S1600-H/photo.jpg")
      = txt "http://1.bp.example.com/-a/b/s3200/photo.jpg" := by
  decide

end ImageLocalizer
